import Mathlib

/-!
# FunctionalLegalize: a shallow embedding of `src/main.cpp`

The program snaps rectangles ("cells") to a grid, sorts them by the x-coordinate of
their centre with a hand-written merge sort, filters them into rows, pushes overlapping
cells of one row to the right (`legalize`) and concatenates the rows again.

Modelling conventions.

* A `float` is a binary32 number. `F32` wraps a rational that is read through `rnd`, the
  rounding to the nearest number with a 24-bit significand, ties to the even significand;
  `F32.val` is the number denoted. Every arithmetic operation of the program rounds its
  exact result with `rnd`, as the hardware does. The exponent range is not bounded:
  overflow to infinity, gradual underflow, NaN and the sign of zero are outside the model.
  Division is Lean's total division; statements that divide assume a nonzero divisor.
* In the statements `a.val + b.val`, `a.val ≤ b.val` and so on are exact rational
  arithmetic on the numbers denoted, `(F32.add a b).val` is the sum the program computes.
* `std::vector<Rectangle>` is `List Rectangle`; a pair of iterators into a vector is the
  sub-list between them.  Loop counters (`uint32_t`) are natural numbers, i.e. the
  vectors are assumed to hold fewer than `2^32` elements.
* Code that reads an element that is not there (`in.front()` of an empty vector,
  `at` out of range) yields `none`.
* `mergeSort` is recursive without a structural argument; it is embedded with a fuel
  parameter that bounds the recursion depth, `none` meaning "fuel exhausted".
-/

/-! ## binary32 arithmetic -/

/-- The number of binary digits of `n`, computed with at most `fuel` halvings. -/
def bitLength : Nat → Nat → Nat
  | 0, _ => 0
  | fuel + 1, n => if n = 0 then 0 else bitLength fuel (n / 2) + 1

/-- The exponent of the highest power of two that is at most `n`, for `n ≠ 0`. -/
def log2Floor (n : Nat) : Nat := bitLength n n - 1

/-- The binade of a nonzero rational `q`: the integer `b` with `2^b ≤ |q| < 2^(b+1)`,
found from the digit counts of numerator and denominator. -/
def binade (q : ℚ) : ℤ :=
  if (2 : ℚ) ^ ((log2Floor q.num.natAbs : ℤ) - (log2Floor q.den : ℤ)) ≤ |q| then
    (log2Floor q.num.natAbs : ℤ) - (log2Floor q.den : ℤ)
  else (log2Floor q.num.natAbs : ℤ) - (log2Floor q.den : ℤ) - 1

/-- Rounding to the nearest integer, a tie going to the even neighbour. -/
def roundEven (m : ℚ) : ℤ :=
  if m - ⌊m⌋ < 1 / 2 then ⌊m⌋
  else if 1 / 2 < m - ⌊m⌋ then ⌊m⌋ + 1
  else if ⌊m⌋ % 2 = 0 then ⌊m⌋ else ⌊m⌋ + 1

/-- Rounding to binary32, round-to-nearest-even: `q` is scaled by the unit in the last
place of its binade, `2^(binade q - 23)`, so that the significand lies between `2^23`
and `2^24`, rounded to an integer, and scaled back. -/
def rnd (q : ℚ) : ℚ := (roundEven (q / 2 ^ (binade q - 23)) : ℚ) * 2 ^ (binade q - 23)

/-- A `float`. The number denoted is `val`, the field read through `rnd`. -/
structure F32 where
  raw : ℚ
deriving DecidableEq

namespace F32

/-- The binary32 number denoted. -/
def val (a : F32) : ℚ := rnd a.raw

/-- The `float` nearest to a rational: what a literal such as `0.1f` denotes. -/
def ofRat (q : ℚ) : F32 := ⟨rnd q⟩

/-- Conversion of an unsigned integer to `float`, rounding to nearest. -/
def ofNat (n : Nat) : F32 := ⟨rnd (n : ℚ)⟩

instance (n : Nat) : OfNat F32 n := ⟨F32.ofRat (n : ℚ)⟩

/-- Mirror of `float` `operator+`: the exact sum, rounded. -/
def add (a b : F32) : F32 := ⟨rnd (a.val + b.val)⟩

/-- Mirror of `float` `operator*`: the exact product, rounded. -/
def mul (a b : F32) : F32 := ⟨rnd (a.val * b.val)⟩

/-- Mirror of `float` `operator/`: the exact quotient, rounded. -/
def div (a b : F32) : F32 := ⟨rnd (a.val / b.val)⟩

/-- Mirror of `std::floor(float)`: the largest integer not above the argument. -/
def floor (a : F32) : F32 := ⟨((⌊a.val⌋ : ℤ) : ℚ)⟩

end F32

/-! ## Data model -/

/-- Mirror of `template <class T> struct Point` at `T = float`. -/
structure Point where
  x : F32
  y : F32
deriving DecidableEq

namespace Point

/-- Mirror of `operator+(const Point&)`. -/
def add (p o : Point) : Point := ⟨F32.add p.x o.x, F32.add p.y o.y⟩

/-- Mirror of `operator/(value_type)`. -/
def divScalar (p : Point) (o : F32) : Point := ⟨F32.div p.x o, F32.div p.y o⟩

/-- Mirror of `operator/(const Point&)`. -/
def div (p o : Point) : Point := ⟨F32.div p.x o.x, F32.div p.y o.y⟩

/-- Mirror of `operator*(const Point&)`. -/
def mul (p o : Point) : Point := ⟨F32.mul p.x o.x, F32.mul p.y o.y⟩

/-- Mirror of `std::floor(const Point<T>&)`: componentwise floor. -/
def floor (p : Point) : Point := ⟨F32.floor p.x, F32.floor p.y⟩

end Point

/-- Mirror of `struct Rectangle`. -/
structure Rectangle where
  position : Point
  size : Point
deriving DecidableEq

namespace Rectangle

/-- Mirror of `Rectangle::lowerCorner`. -/
def lowerCorner (r : Rectangle) : Point := r.position

/-- Mirror of `Rectangle::upperCorner`. -/
def upperCorner (r : Rectangle) : Point := r.position.add r.size

/-- Mirror of `Rectangle::center`: `lowerCorner() + (size / 2.0)`, in `float`. -/
def center (r : Rectangle) : Point := r.lowerCorner.add (r.size.divScalar 2)

/-- The x-coordinate of the centre in exact arithmetic, `position.x + size.x / 2`. -/
def exactCenterX (r : Rectangle) : ℚ := r.position.x.val + r.size.x.val / 2

end Rectangle

/-- The value of `std::max(a, b)`, which is `(a < b) ? b : a`. -/
def stdMax (a b : F32) : F32 := if a.val < b.val then b else a

/-! ## `legalize` -/

/-- The rectangle built in the body of the loop of `legalize` from `rect = in.at(i)` and
`prev = out.at(i-1)`. -/
def shifted (prev rect : Rectangle) : Rectangle :=
  ⟨⟨stdMax rect.position.x (prev.position.add prev.size).x, rect.position.y⟩, rect.size⟩

/-- One iteration of the loop of `legalize`, at counter value `i`, on the vector `out`
built so far; `none` once an `at` has failed. -/
def legalizeStep (cells : List Rectangle) (acc : Option (List Rectangle)) (i : Nat) :
    Option (List Rectangle) :=
  match acc with
  | none => none
  | some out =>
    match cells[i]?, out[i - 1]? with
    | some rect, some prev => some (out ++ [shifted prev rect])
    | _, _ => none

/-- Mirror of `legalize`: `out` starts as `[in.front()]` and the loop runs for
`i = 1, ..., in.size() - 1`.  An empty input has no front element: `none`. -/
def legalize (cells : List Rectangle) : Option (List Rectangle) :=
  match cells.head? with
  | none => none
  | some front => (List.range' 1 (cells.length - 1)).foldl (legalizeStep cells) (some [front])

/-- The cells that `legalize` appends after a cell `prev` already placed: a recursive
description of the loop, used to reason about it. -/
def placeAfter (prev : Rectangle) : List Rectangle → List Rectangle
  | [] => []
  | rect :: rest => shifted prev rect :: placeAfter (shifted prev rect) rest

/-! ## `mergeSort` and `sortByX` -/

/-- The comparator handed to `std::merge` in `mergeSort`:
`a.center().x < b.center().x`, on the centres computed in `float`. -/
def centerLess (a b : Rectangle) : Bool := decide (a.center.x.val < b.center.x.val)

/-- The inner part of `std::merge` while the head `a` of the first range stays the same:
heads `b` of the second range are emitted as long as `comp(b, a)` holds; as soon as it
does not, `a` is emitted and the merge goes on (`cont`) with the rest `xs` of the first
range.  When the second range runs out, the first range `a :: xs` is copied. -/
def mergeSecond (comp : Rectangle → Rectangle → Bool) (a : Rectangle)
    (xs : List Rectangle) (cont : List Rectangle → List Rectangle) :
    List Rectangle → List Rectangle
  | [] => a :: xs
  | b :: ys => if comp b a then b :: mergeSecond comp a xs cont ys else a :: cont (b :: ys)

/-- The library algorithm `std::merge(first1, last1, first2, last2, out, comp)`: while
both ranges are non-empty the head of the second range is emitted when
`comp(*first2, *first1)` holds and the head of the first range otherwise; what is left
of either range is copied at the end (see `stdMerge_cons_cons`). -/
def stdMerge (comp : Rectangle → Rectangle → Bool) :
    List Rectangle → List Rectangle → List Rectangle
  | [] => fun ys => ys
  | a :: xs => mergeSecond comp a xs (stdMerge comp xs)

/-- Mirror of `mergeSort(begin, end)` on the range `[begin, end)`.  The only base case
is a range of distance one; every other range, the empty one included, is split at
`begin + distance / 2` and both parts are sorted recursively.  `fuel` bounds the depth
of the recursion. -/
def mergeSort : Nat → List Rectangle → Option (List Rectangle)
  | 0, _ => none
  | fuel + 1, range =>
    match range with
    | [single] => some [single]
    | _ =>
      match mergeSort fuel (range.take (range.length / 2)) with
      | none => none
      | some first =>
        match mergeSort fuel (range.drop (range.length / 2)) with
        | none => none
        | some second => some (stdMerge centerLess first second)

/-- Mirror of `sortByX`: `mergeSort(in.cbegin(), in.cend())`. -/
def sortByX (fuel : Nat) (cells : List Rectangle) : Option (List Rectangle) :=
  mergeSort fuel cells

/-- Ascending by the x-coordinate of the centre as the program computes it: every cell's
`center().x` is at most that of every later cell. -/
def AscendingByCenter (cells : List Rectangle) : Prop :=
  cells.Pairwise (fun a b => a.center.x.val ≤ b.center.x.val)

/-! ## `snapToGrid`, `makePartition`, `join` -/

/-- The lambda of `snapToGrid`: position `std::floor(rect.position / grid) * grid`,
size kept. -/
def snapCell (grid : Point) (rect : Rectangle) : Rectangle :=
  ⟨(Point.floor (rect.position.div grid)).mul grid, rect.size⟩

/-- Mirror of `snapToGrid`: `std::transform` over the input, each result pushed to the
back of `out`. -/
def snapToGrid (cells : List Rectangle) (grid : Point) : List Rectangle :=
  cells.foldl (fun out rect => out ++ [snapCell grid rect]) []

/-- Mirror of `makePartition`: `std::copy_if` over the input, each accepted element
pushed to the back of `out`. -/
def makePartition (cells : List Rectangle) (pred : Rectangle → Bool) : List Rectangle :=
  cells.foldl (fun out rect => if pred rect then out ++ [rect] else out) []

/-- Mirror of `join`: two nested loops pushing every element to the back of `out`
(the accumulated `total` only sizes the reservation). -/
def join (partitions : List (List Rectangle)) : List Rectangle :=
  partitions.foldl (fun out v => v.foldl (fun out el => out ++ [el]) out) []

/-! ## `makeLegalizedPartitions` and the expression evaluated in `main` -/

/-- The y-coordinate that row `i` is compared with, `grid.y * i`: the counter is
converted to `float` and the product is rounded. -/
def rowY (grid : Point) (i : Nat) : F32 := F32.mul grid.y (F32.ofNat i)

/-- The lambda of `makeLegalizedPartitions` for row `i`:
`rect.position.y == (grid.y * i)`. -/
def rowPred (grid : Point) (i : Nat) (rect : Rectangle) : Bool :=
  decide (rect.position.y.val = (rowY grid i).val)

/-- The size of the vector `partitions`: the `float` `(boundaries.size / grid).y`
converted to an unsigned integer, which truncates towards zero and is undefined for
values that truncate to a negative number (`none`). -/
def rowCount (boundaries : Rectangle) (grid : Point) : Option Nat :=
  if (boundaries.size.div grid).y.val ≤ -1 then none
  else some (Int.toNat ⌊(boundaries.size.div grid).y.val⌋)

/-- The loop of `makeLegalizedPartitions` over the row indices still to be visited:
each row is filtered out of the input and legalized; the first failing `legalize`
ends the computation. -/
def legalizedRows (cells : List Rectangle) (grid : Point) :
    List Nat → Option (List (List Rectangle))
  | [] => some []
  | i :: rows =>
    match legalize (makePartition cells (rowPred grid i)) with
    | none => none
    | some row =>
      match legalizedRows cells grid rows with
      | none => none
      | some others => some (row :: others)

/-- Mirror of `makeLegalizedPartitions`: rows `0, ..., rowCount - 1` in this order. -/
def makeLegalizedPartitions (cells : List Rectangle) (boundaries : Rectangle)
    (grid : Point) : Option (List (List Rectangle)) :=
  match rowCount boundaries grid with
  | none => none
  | some n => legalizedRows cells grid (List.range n)

/-- The value written to `1-legalized.svg` by `main`:
`join(makeLegalizedPartitions(sortByX(snapToGrid(cells, Grid)), boundaries, Grid))`. -/
def legalizedLayout (fuel : Nat) (cells : List Rectangle) (boundaries : Rectangle)
    (grid : Point) : Option (List Rectangle) :=
  match sortByX fuel (snapToGrid cells grid) with
  | none => none
  | some sorted =>
    match makeLegalizedPartitions sorted boundaries grid with
    | none => none
    | some partitions => some (join partitions)

/-- The constant `boundaries` of `main`. -/
def mainBoundaries : Rectangle := ⟨⟨0, 0⟩, ⟨300000, 300000⟩⟩

/-- The constant `Grid` of `main`. -/
def mainGrid : Point := ⟨1, 200⟩

/-- The constant `library` of `main`. The widths `20.0*Grid.x` and so on are products
formed in `double`, where they are exact, and then converted to `float`. -/
def mainLibrary : List Rectangle :=
  [⟨⟨0, 0⟩, ⟨F32.ofRat (20 * mainGrid.x.val), mainGrid.y⟩⟩,
   ⟨⟨0, 0⟩, ⟨F32.ofRat (40 * mainGrid.x.val), mainGrid.y⟩⟩,
   ⟨⟨0, 0⟩, ⟨F32.ofRat (160 * mainGrid.x.val), mainGrid.y⟩⟩,
   ⟨⟨0, 0⟩, ⟨F32.ofRat (320 * mainGrid.x.val), mainGrid.y⟩⟩]

/-! ## Sample data -/

/-- The row used to instantiate the statements about `legalize`. -/
def sampleRow : List Rectangle :=
  [⟨⟨5, 0⟩, ⟨10, 200⟩⟩, ⟨⟨8, 0⟩, ⟨5, 200⟩⟩, ⟨⟨20, 0⟩, ⟨3, 200⟩⟩]

/-- The cells used to instantiate the statements about `sortByX`, `snapToGrid` and
`makePartition`; the second and the fourth have the same centre x. -/
def sampleCells : List Rectangle :=
  [⟨⟨20, 0⟩, ⟨3, 200⟩⟩, ⟨⟨8, 200⟩, ⟨5, 200⟩⟩, ⟨⟨5, 0⟩, ⟨10, 200⟩⟩, ⟨⟨10, 400⟩, ⟨1, 200⟩⟩]

/-- The single library cell at the origin on which the expression of `main` is
evaluated. -/
def loneCell : Rectangle := ⟨⟨0, 0⟩, ⟨20, 200⟩⟩

/-- The grid with pitch `0.3f` in both directions. -/
def fineGrid : Point := ⟨F32.ofRat (3 / 10), F32.ofRat (3 / 10)⟩

/-- The cell at `(25.5, 9.25)`, snapped on `fineGrid`. -/
def fineCell : Rectangle := ⟨⟨F32.ofRat (51 / 2), F32.ofRat (37 / 4)⟩, ⟨20, 200⟩⟩

/-- Cells off the grid of `main` whose snap on that grid needs no rounding. -/
def offGridCells : List Rectangle :=
  [⟨⟨F32.ofRat (41 / 2), 250⟩, ⟨20, 200⟩⟩, ⟨⟨F32.ofRat (31 / 4), 1000⟩, ⟨40, 200⟩⟩,
   ⟨⟨F32.ofRat (51 / 2), 50⟩, ⟨40, 200⟩⟩]

/-- The widest library cell at the origin. -/
def wideCell : Rectangle := ⟨⟨0, 0⟩, ⟨320, 200⟩⟩

/-- The narrowest library cell, starting at `x = 10` in the row of `wideCell`. -/
def narrowCell : Rectangle := ⟨⟨10, 0⟩, ⟨20, 200⟩⟩

/-- Two library cells far to the right, at `x = 2^25` (width 20) and `x = 2^25 - 152`
(width 320): their exact centres are `2^25 + 10` and `2^25 + 8`, and both centres
computed in `float` are `2^25 + 8`. -/
def tieCells : List Rectangle :=
  [⟨⟨33554432, 0⟩, ⟨20, 200⟩⟩, ⟨⟨33554280, 0⟩, ⟨320, 200⟩⟩]

/-- A row sorted by x-position whose cells start at `x = 2^24` and have width 1. -/
def farRow : List Rectangle :=
  [⟨⟨16777216, 0⟩, ⟨1, 200⟩⟩, ⟨⟨16777216, 0⟩, ⟨1, 200⟩⟩]

/-- A row that is not sorted by x-position: a cell at `x = 2^24`, then one at `x = 0`,
both of width 1. -/
def farUnsortedRow : List Rectangle :=
  [⟨⟨16777216, 0⟩, ⟨1, 200⟩⟩, ⟨⟨0, 0⟩, ⟨1, 200⟩⟩]

/-- A grid whose rows are `0.1f` apart. -/
def tenthGrid : Point := ⟨1, F32.ofRat (1 / 10)⟩

/-- A boundary of height `0.4f`: four rows of `tenthGrid`. -/
def tenthBoundaries : Rectangle := ⟨⟨0, 0⟩, ⟨1, F32.ofRat (4 / 10)⟩⟩

/-- One cell at each of the heights `0`, `0.1f`, `0.2f`, `0.3f`. -/
def tenthCells : List Rectangle :=
  [⟨⟨0, 0⟩, ⟨1, F32.ofRat (1 / 10)⟩⟩, ⟨⟨0, F32.ofRat (1 / 10)⟩, ⟨1, F32.ofRat (1 / 10)⟩⟩,
   ⟨⟨0, F32.ofRat (2 / 10)⟩, ⟨1, F32.ofRat (1 / 10)⟩⟩,
   ⟨⟨0, F32.ofRat (3 / 10)⟩, ⟨1, F32.ofRat (1 / 10)⟩⟩]

/-- A row whose first cell is at `x = 0.1f` with width `0.2f`. -/
def dragRow : List Rectangle :=
  [⟨⟨F32.ofRat (1 / 10), 0⟩, ⟨F32.ofRat (2 / 10), 200⟩⟩, ⟨⟨0, 0⟩, ⟨1, 200⟩⟩]

/-- Exact x-positions for `dragRow`: the first cell's own position and its exact right
edge. -/
def dragTargets : List ℚ :=
  [(F32.ofRat (1 / 10)).val, (F32.ofRat (1 / 10)).val + (F32.ofRat (2 / 10)).val]

/-- The x-positions of a legal placement of `sampleRow` that is not the tightest one. -/
def sampleTargets : List F32 := [6, 16, 25]

/-! ## Facts about the rounding `rnd` -/

theorem bitLength_spec : ∀ (fuel n : Nat), n ≤ fuel → n ≠ 0 →
    2 ^ (bitLength fuel n - 1) ≤ n ∧ n < 2 ^ bitLength fuel n := by
  intro fuel
  induction fuel with
  | zero => intro n h h0; omega
  | succ fuel ih =>
    intro n h h0
    rw [bitLength, if_neg h0]
    by_cases h2 : n / 2 = 0
    · have h1 : n = 1 := by omega
      subst h1
      cases fuel <;> simp [bitLength]
    · obtain ⟨ha, hb⟩ := ih (n / 2) (by omega) h2
      have hpos : 0 < bitLength fuel (n / 2) := by
        rcases Nat.eq_zero_or_pos (bitLength fuel (n / 2)) with h | h
        · rw [h] at hb; simp at hb; omega
        · exact h
      constructor
      · have : bitLength fuel (n / 2) + 1 - 1 = (bitLength fuel (n / 2) - 1) + 1 := by omega
        rw [this, pow_succ]
        omega
      · rw [pow_succ]; omega

theorem log2Floor_spec (n : Nat) (h : n ≠ 0) :
    2 ^ log2Floor n ≤ n ∧ n < 2 ^ (log2Floor n + 1) := by
  obtain ⟨ha, hb⟩ := bitLength_spec n n (le_refl _) h
  have hpos : 0 < bitLength n n := by
    rcases Nat.eq_zero_or_pos (bitLength n n) with h0 | h0
    · rw [h0] at hb; simp at hb; omega
    · exact h0
  refine ⟨ha, ?_⟩
  have : log2Floor n + 1 = bitLength n n := by unfold log2Floor; omega
  rw [this]; exact hb

theorem two_zpow_pos (e : ℤ) : (0 : ℚ) < 2 ^ e := zpow_pos (by norm_num) e

theorem abs_eq_natAbs_div (q : ℚ) : |q| = (q.num.natAbs : ℚ) / (q.den : ℚ) := by
  conv_lhs => rw [← Rat.num_div_den q]
  rw [abs_div, Nat.abs_cast, Nat.cast_natAbs, Int.cast_abs]

theorem binade_spec (q : ℚ) (h : q ≠ 0) :
    (2 : ℚ) ^ binade q ≤ |q| ∧ |q| < (2 : ℚ) ^ (binade q + 1) := by
  have ha0 : q.num.natAbs ≠ 0 := by
    simpa [Int.natAbs_eq_zero] using h
  have hd0 : q.den ≠ 0 := q.den_nz
  obtain ⟨ha1, ha2⟩ := log2Floor_spec q.num.natAbs ha0
  obtain ⟨hd1, hd2⟩ := log2Floor_spec q.den hd0
  have hdpos : (0 : ℚ) < (q.den : ℚ) := by exact_mod_cast Nat.pos_of_ne_zero hd0
  have ha1q : (2 : ℚ) ^ (log2Floor q.num.natAbs) ≤ (q.num.natAbs : ℚ) := by exact_mod_cast ha1
  have ha2q : (q.num.natAbs : ℚ) < (2 : ℚ) ^ (log2Floor q.num.natAbs + 1) := by exact_mod_cast ha2
  have hd1q : (2 : ℚ) ^ (log2Floor q.den) ≤ (q.den : ℚ) := by exact_mod_cast hd1
  have hd2q : (q.den : ℚ) < (2 : ℚ) ^ (log2Floor q.den + 1) := by exact_mod_cast hd2
  have h2 : (2 : ℚ) ≠ 0 := by norm_num
  have hup : |q| < (2 : ℚ) ^ ((log2Floor q.num.natAbs : ℤ) - (log2Floor q.den : ℤ) + 1) := by
    rw [abs_eq_natAbs_div, div_lt_iff₀ hdpos]
    have e : (2 : ℚ) ^ ((log2Floor q.num.natAbs : ℤ) - (log2Floor q.den : ℤ) + 1)
        * (2 : ℚ) ^ (log2Floor q.den) = (2 : ℚ) ^ (log2Floor q.num.natAbs + 1) := by
      rw [← zpow_natCast, ← zpow_natCast, ← zpow_add₀ h2]
      congr 1
      push_cast
      ring
    calc (q.num.natAbs : ℚ) < (2 : ℚ) ^ (log2Floor q.num.natAbs + 1) := ha2q
      _ = (2 : ℚ) ^ ((log2Floor q.num.natAbs : ℤ) - (log2Floor q.den : ℤ) + 1)
            * (2 : ℚ) ^ (log2Floor q.den) := e.symm
      _ ≤ _ := mul_le_mul_of_nonneg_left hd1q (two_zpow_pos _).le
  have hlow : (2 : ℚ) ^ ((log2Floor q.num.natAbs : ℤ) - (log2Floor q.den : ℤ) - 1) ≤ |q| := by
    rw [abs_eq_natAbs_div, le_div_iff₀ hdpos]
    have e : (2 : ℚ) ^ ((log2Floor q.num.natAbs : ℤ) - (log2Floor q.den : ℤ) - 1)
        * (2 : ℚ) ^ (log2Floor q.den + 1) = (2 : ℚ) ^ (log2Floor q.num.natAbs) := by
      rw [← zpow_natCast, ← zpow_natCast, ← zpow_add₀ h2]
      congr 1
      push_cast
      ring
    calc (2 : ℚ) ^ ((log2Floor q.num.natAbs : ℤ) - (log2Floor q.den : ℤ) - 1) * (q.den : ℚ)
        ≤ (2 : ℚ) ^ ((log2Floor q.num.natAbs : ℤ) - (log2Floor q.den : ℤ) - 1)
            * (2 : ℚ) ^ (log2Floor q.den + 1) :=
          mul_le_mul_of_nonneg_left hd2q.le (two_zpow_pos _).le
      _ = (2 : ℚ) ^ (log2Floor q.num.natAbs) := e
      _ ≤ _ := ha1q
  unfold binade
  split_ifs with hc
  · exact ⟨hc, hup⟩
  · refine ⟨hlow, ?_⟩
    rw [sub_add_cancel]
    exact not_le.mp hc

theorem roundEven_intCast (n : ℤ) : roundEven (n : ℚ) = n := by
  simp [roundEven]

theorem roundEven_bounds (m : ℚ) : ⌊m⌋ ≤ roundEven m ∧ roundEven m ≤ ⌊m⌋ + 1 := by
  unfold roundEven
  split_ifs <;> constructor <;> omega

theorem roundEven_mono (a b : ℚ) (h : a ≤ b) : roundEven a ≤ roundEven b := by
  have hf : ⌊a⌋ ≤ ⌊b⌋ := Int.floor_mono h
  rcases lt_or_eq_of_le hf with hlt | heq
  · have := (roundEven_bounds a).2
    have := (roundEven_bounds b).1
    omega
  · unfold roundEven
    rw [← heq]
    split_ifs <;> first | omega | (exfalso; linarith)


theorem rnd_zero : rnd 0 = 0 := by decide!

theorem rnd_eq (q : ℚ) :
    rnd q = (roundEven (q / 2 ^ (binade q - 23)) : ℚ) * 2 ^ (binade q - 23) := rfl

theorem mantissa_abs_lt (q : ℚ) : |q / 2 ^ (binade q - 23)| < 2 ^ 24 := by
  by_cases h : q = 0
  · subst h; simp
  · have hb := (binade_spec q h).2
    rw [abs_div, abs_of_pos (two_zpow_pos _), div_lt_iff₀ (two_zpow_pos _)]
    have e : (2 : ℚ) ^ 24 * 2 ^ (binade q - 23) = 2 ^ (binade q + 1) := by
      rw [← zpow_natCast, ← zpow_add₀ (by norm_num : (2 : ℚ) ≠ 0)]
      congr 1
      push_cast
      ring
    rw [e]
    exact hb

theorem roundEven_abs_le (m : ℚ) (h : |m| < 2 ^ 24) : |roundEven m| ≤ 2 ^ 24 := by
  have h1 := abs_lt.mp h
  have hu : roundEven m ≤ roundEven (((2 ^ 24 : ℤ) : ℚ)) :=
    roundEven_mono _ _ (by push_cast; exact h1.2.le)
  have hl : roundEven (((-(2 ^ 24) : ℤ) : ℚ)) ≤ roundEven m :=
    roundEven_mono _ _ (by push_cast; exact h1.1.le)
  rw [roundEven_intCast] at hu hl
  exact abs_le.mpr ⟨hl, hu⟩

theorem rnd_shape (q : ℚ) :
    ∃ M : ℤ, |M| ≤ 2 ^ 24 ∧ rnd q = (M : ℚ) * 2 ^ (binade q - 23) :=
  ⟨roundEven (q / 2 ^ (binade q - 23)), roundEven_abs_le _ (mantissa_abs_lt q), rfl⟩

theorem rnd_of_mantissa_int (q : ℚ) (N : ℤ) (h : q / 2 ^ (binade q - 23) = (N : ℚ)) :
    rnd q = q := by
  rw [rnd_eq, h, roundEven_intCast, ← h, div_mul_cancel₀ _ (two_zpow_pos _).ne']

theorem rnd_mul_zpow (M E : ℤ) (hM : |M| ≤ 2 ^ 24) :
    rnd ((M : ℚ) * 2 ^ E) = (M : ℚ) * 2 ^ E := by
  by_cases hM0 : M = 0
  · subst hM0; simp [rnd_zero]
  have h2 : (2 : ℚ) ≠ 0 := by norm_num
  have hq0 : (M : ℚ) * 2 ^ E ≠ 0 :=
    mul_ne_zero (by exact_mod_cast hM0) (two_zpow_pos E).ne'
  obtain ⟨hlow, hup⟩ := binade_spec _ hq0
  have hdiv : (M : ℚ) * 2 ^ E / 2 ^ (binade ((M : ℚ) * 2 ^ E) - 23)
      = (M : ℚ) * 2 ^ (E - (binade ((M : ℚ) * 2 ^ E) - 23)) := by
    rw [mul_div_assoc, ← zpow_sub₀ h2]
  rcases le_or_lt (binade ((M : ℚ) * 2 ^ E) - 23) E with hc | hc
  · -- the mantissa is `M * 2 ^ k` for a natural `k`
    obtain ⟨k, hk⟩ := Int.eq_ofNat_of_zero_le (sub_nonneg.mpr hc)
    refine rnd_of_mantissa_int _ (M * 2 ^ k) ?_
    rw [hdiv, hk, zpow_natCast]
    push_cast
    rfl
  · -- then `|M| = 2 ^ 24` and the exponents differ by one
    have habs : |(M : ℚ) * 2 ^ E| = |(M : ℚ)| * 2 ^ E := by
      rw [abs_mul, abs_of_pos (two_zpow_pos E)]
    rw [habs] at hlow hup
    have hMq : |(M : ℚ)| ≤ 2 ^ 24 := by exact_mod_cast hM
    have h24 : (2 : ℚ) ^ (binade ((M : ℚ) * 2 ^ E) - E) ≤ |(M : ℚ)| := by
      rw [zpow_sub₀ h2, div_le_iff₀ (two_zpow_pos E)]
      exact hlow
    have hle : binade ((M : ℚ) * 2 ^ E) - E ≤ 24 := by
      have : (2 : ℚ) ^ (binade ((M : ℚ) * 2 ^ E) - E) ≤ (2 : ℚ) ^ (24 : ℤ) := by
        rw [zpow_ofNat]; exact h24.trans hMq
      exact (zpow_le_zpow_iff_right₀ (by norm_num : (1 : ℚ) < 2)).mp this
    have hbe : binade ((M : ℚ) * 2 ^ E) - 23 = E + 1 := by omega
    have hMabs : |(M : ℚ)| = 2 ^ 24 := by
      apply le_antisymm hMq
      have : binade ((M : ℚ) * 2 ^ E) - E = 24 := by omega
      rw [this, zpow_ofNat] at h24
      exact h24
    have hMint : |M| = 2 ^ 24 := by exact_mod_cast hMabs
    rcases abs_eq (by norm_num : (0 : ℤ) ≤ 2 ^ 24) |>.mp hMint with hM1 | hM1
    · refine rnd_of_mantissa_int _ (2 ^ 23) ?_
      rw [hdiv, hbe, hM1]
      have : E - (E + 1) = -1 := by ring
      rw [this]
      norm_num
    · refine rnd_of_mantissa_int _ (-(2 ^ 23)) ?_
      rw [hdiv, hbe, hM1]
      have : E - (E + 1) = -1 := by ring
      rw [this]
      norm_num

theorem rnd_rnd (q : ℚ) : rnd (rnd q) = rnd q := by
  obtain ⟨M, hM, h⟩ := rnd_shape q
  rw [h]
  exact rnd_mul_zpow M _ hM

theorem rnd_intCast (n : ℤ) (h : |n| ≤ 2 ^ 24) : rnd (n : ℚ) = n := by
  have := rnd_mul_zpow n 0 h
  simpa using this

theorem rnd_half (q : ℚ) (h : rnd q = q) : rnd (q / 2) = q / 2 := by
  obtain ⟨M, hM, hs⟩ := rnd_shape q
  rw [h] at hs
  have e : q / 2 = (M : ℚ) * 2 ^ (binade q - 23 - 1) := by
    rw [zpow_sub_one₀ (by norm_num : (2 : ℚ) ≠ 0), ← mul_assoc, ← hs]
    ring
  rw [e]
  exact rnd_mul_zpow M _ hM

theorem rnd_floor (q : ℚ) (h : rnd q = q) : rnd ((⌊q⌋ : ℤ) : ℚ) = ((⌊q⌋ : ℤ) : ℚ) := by
  obtain ⟨M, hM, hs⟩ := rnd_shape q
  rw [h] at hs
  rcases le_or_lt 0 (binade q - 23) with hc | hc
  · obtain ⟨k, hk⟩ := Int.eq_ofNat_of_zero_le hc
    have hq : q = ((M * 2 ^ k : ℤ) : ℚ) := by
      rw [hs, hk, zpow_natCast]; push_cast; rfl
    rw [hq, Int.floor_intCast, ← hq]
    exact h
  · apply rnd_intCast
    have hMq : |(M : ℚ)| ≤ 2 ^ 24 := by exact_mod_cast hM
    have hpow : (2 : ℚ) ^ (binade q - 23) ≤ 2 ^ (-1 : ℤ) :=
      zpow_le_zpow_right₀ (by norm_num) (by omega)
    have hq : |q| ≤ 2 ^ 23 := by
      rw [hs, abs_mul, abs_of_pos (two_zpow_pos _)]
      calc |(M : ℚ)| * 2 ^ (binade q - 23) ≤ 2 ^ 24 * 2 ^ (-1 : ℤ) :=
            mul_le_mul hMq hpow (two_zpow_pos _).le (by norm_num)
        _ = 2 ^ 23 := by norm_num
    have hq' := abs_le.mp hq
    have h1 : (-(2 ^ 23) : ℤ) ≤ ⌊q⌋ := Int.le_floor.mpr (by push_cast; exact hq'.1)
    have h2 : ⌊q⌋ ≤ (2 ^ 23 : ℤ) := by
      have : ((⌊q⌋ : ℤ) : ℚ) ≤ ((2 ^ 23 : ℤ) : ℚ) := by
        push_cast; exact (Int.floor_le q).trans hq'.2
      exact_mod_cast this
    exact abs_le.mpr ⟨by omega, by omega⟩

theorem binade_le_of_abs_le (p q : ℚ) (hp : p ≠ 0) (hq : q ≠ 0) (h : |p| ≤ |q|) :
    binade p ≤ binade q := by
  have h1 := (binade_spec p hp).1
  have h2 := (binade_spec q hq).2
  have : (2 : ℚ) ^ binade p < 2 ^ (binade q + 1) := lt_of_le_of_lt (h1.trans h) h2
  have := (zpow_lt_zpow_iff_right₀ (by norm_num : (1 : ℚ) < 2)).mp this
  omega

theorem two_zpow_split (b : ℤ) :
    (2 : ℚ) ^ 23 * 2 ^ (b - 23) = 2 ^ b ∧ (2 : ℚ) ^ 24 * 2 ^ (b - 23) = 2 ^ (b + 1) := by
  constructor
  · rw [← zpow_natCast, ← zpow_add₀ (by norm_num : (2 : ℚ) ≠ 0)]
    congr 1; push_cast; ring
  · rw [← zpow_natCast, ← zpow_add₀ (by norm_num : (2 : ℚ) ≠ 0)]
    congr 1; push_cast; ring

theorem rnd_pos_bounds (q : ℚ) (h : 0 < q) :
    (2 : ℚ) ^ binade q ≤ rnd q ∧ rnd q ≤ (2 : ℚ) ^ (binade q + 1) := by
  obtain ⟨hlow, hup⟩ := binade_spec q h.ne'
  rw [abs_of_pos h] at hlow hup
  obtain ⟨e1, e2⟩ := two_zpow_split (binade q)
  have c1 : ((2 ^ 23 : ℤ) : ℚ) = (2 : ℚ) ^ 23 := by norm_num
  have c2 : ((2 ^ 24 : ℤ) : ℚ) = (2 : ℚ) ^ 24 := by norm_num
  have hm1 : ((2 ^ 23 : ℤ) : ℚ) ≤ q / 2 ^ (binade q - 23) := by
    rw [c1, le_div_iff₀ (two_zpow_pos _), e1]; exact hlow
  have hm2 : q / 2 ^ (binade q - 23) ≤ ((2 ^ 24 : ℤ) : ℚ) := by
    rw [c2, div_le_iff₀ (two_zpow_pos _), e2]; exact hup.le
  have r1 := roundEven_mono _ _ hm1
  have r2 := roundEven_mono _ _ hm2
  rw [roundEven_intCast] at r1 r2
  have r1q : (2 : ℚ) ^ 23 ≤ (roundEven (q / 2 ^ (binade q - 23)) : ℚ) := by exact_mod_cast r1
  have r2q : (roundEven (q / 2 ^ (binade q - 23)) : ℚ) ≤ 2 ^ 24 := by exact_mod_cast r2
  rw [rnd_eq]
  constructor
  · rw [← e1]; exact mul_le_mul_of_nonneg_right r1q (two_zpow_pos _).le
  · rw [← e2]; exact mul_le_mul_of_nonneg_right r2q (two_zpow_pos _).le

theorem rnd_neg_bounds (q : ℚ) (h : q < 0) :
    -(2 : ℚ) ^ (binade q + 1) ≤ rnd q ∧ rnd q ≤ -(2 : ℚ) ^ binade q := by
  obtain ⟨hlow, hup⟩ := binade_spec q h.ne
  rw [abs_of_neg h] at hlow hup
  obtain ⟨e1, e2⟩ := two_zpow_split (binade q)
  have c1 : ((-(2 ^ 23) : ℤ) : ℚ) = -(2 : ℚ) ^ 23 := by norm_num
  have c2 : ((-(2 ^ 24) : ℤ) : ℚ) = -(2 : ℚ) ^ 24 := by norm_num
  have hm1 : q / 2 ^ (binade q - 23) ≤ ((-(2 ^ 23) : ℤ) : ℚ) := by
    rw [c1, div_le_iff₀ (two_zpow_pos _), neg_mul, e1]; linarith
  have hm2 : ((-(2 ^ 24) : ℤ) : ℚ) ≤ q / 2 ^ (binade q - 23) := by
    rw [c2, le_div_iff₀ (two_zpow_pos _), neg_mul, e2]; linarith
  have r1 := roundEven_mono _ _ hm1
  have r2 := roundEven_mono _ _ hm2
  rw [roundEven_intCast] at r1 r2
  have r1q : (roundEven (q / 2 ^ (binade q - 23)) : ℚ) ≤ -(2 : ℚ) ^ 23 := by exact_mod_cast r1
  have r2q : -(2 : ℚ) ^ 24 ≤ (roundEven (q / 2 ^ (binade q - 23)) : ℚ) := by exact_mod_cast r2
  rw [rnd_eq]
  constructor
  · have := mul_le_mul_of_nonneg_right r2q (two_zpow_pos (binade q - 23)).le
    rw [neg_mul, e2] at this; exact this
  · have := mul_le_mul_of_nonneg_right r1q (two_zpow_pos (binade q - 23)).le
    rw [neg_mul, e1] at this; exact this

theorem rnd_same_binade (p q : ℚ) (h : p ≤ q) (hb : binade p = binade q) : rnd p ≤ rnd q := by
  rw [rnd_eq, rnd_eq, hb]
  have hm : p / 2 ^ (binade q - 23) ≤ q / 2 ^ (binade q - 23) :=
    div_le_div_of_nonneg_right h (two_zpow_pos _).le
  have := roundEven_mono _ _ hm
  exact mul_le_mul_of_nonneg_right (by exact_mod_cast this) (two_zpow_pos _).le

theorem rnd_mono (p q : ℚ) (h : p ≤ q) : rnd p ≤ rnd q := by
  rcases lt_trichotomy p 0 with hp | hp | hp
  · rcases lt_or_le q 0 with hq | hq
    · -- both negative
      have hbin : binade q ≤ binade p :=
        binade_le_of_abs_le q p hq.ne hp.ne (by rw [abs_of_neg hq, abs_of_neg hp]; linarith)
      rcases lt_or_eq_of_le hbin with hlt | heq
      · have h1 := (rnd_neg_bounds p hp).2
        have h2 := (rnd_neg_bounds q hq).1
        have : (2 : ℚ) ^ (binade q + 1) ≤ 2 ^ binade p :=
          zpow_le_zpow_right₀ (by norm_num) (by omega)
        linarith
      · exact rnd_same_binade p q h heq.symm
    · have h1 := (rnd_neg_bounds p hp).2
      have hpos := two_zpow_pos (binade p)
      rcases eq_or_lt_of_le hq with hq0 | hq0
      · rw [← hq0, rnd_zero]; linarith
      · have h2 := (rnd_pos_bounds q hq0).1
        have := two_zpow_pos (binade q)
        linarith
  · subst hp
    rw [rnd_zero]
    rcases eq_or_lt_of_le h with hq0 | hq0
    · rw [← hq0, rnd_zero]
    · have h2 := (rnd_pos_bounds q hq0).1
      have := two_zpow_pos (binade q)
      linarith
  · have hq : 0 < q := lt_of_lt_of_le hp h
    have hbin : binade p ≤ binade q :=
      binade_le_of_abs_le p q hp.ne' hq.ne' (by rw [abs_of_pos hp, abs_of_pos hq]; exact h)
    rcases lt_or_eq_of_le hbin with hlt | heq
    · have h1 := (rnd_pos_bounds p hp).2
      have h2 := (rnd_pos_bounds q hq).1
      have : (2 : ℚ) ^ (binade p + 1) ≤ 2 ^ binade q :=
        zpow_le_zpow_right₀ (by norm_num) (by omega)
      linarith
    · exact rnd_same_binade p q h heq

/-! ## Facts about `F32` -/

theorem F32.rnd_val (a : F32) : rnd a.val = a.val := rnd_rnd a.raw

theorem F32.add_val (a b : F32) : (F32.add a b).val = rnd (a.val + b.val) := rnd_rnd _

theorem F32.mul_val (a b : F32) : (F32.mul a b).val = rnd (a.val * b.val) := rnd_rnd _

theorem F32.div_val (a b : F32) : (F32.div a b).val = rnd (a.val / b.val) := rnd_rnd _

theorem F32.floor_val (a : F32) : (F32.floor a).val = ((⌊a.val⌋ : ℤ) : ℚ) :=
  rnd_floor a.val (F32.rnd_val a)

theorem F32.ofNat_val (n : Nat) : (F32.ofNat n).val = rnd (n : ℚ) := rnd_rnd _

theorem F32.ofRat_val (q : ℚ) : (F32.ofRat q).val = rnd q := rnd_rnd _

theorem F32.le_of_exact_le (a : F32) (q : ℚ) (h : q ≤ a.val) : rnd q ≤ a.val := by
  have := rnd_mono q a.val h
  rwa [F32.rnd_val] at this

theorem stdMax_val (a b : F32) : (stdMax a b).val = max a.val b.val := by
  unfold stdMax
  rcases lt_or_le a.val b.val with h | h
  · rw [if_pos h, max_eq_right h.le]
  · rw [if_neg (not_lt.mpr h), max_eq_left h]

theorem center_x_val (r : Rectangle) : r.center.x.val = rnd r.exactCenterX := by
  have h2 : (2 : F32).val = 2 := by decide!
  have hhalf : (F32.div r.size.x 2).val = r.size.x.val / 2 := by
    rw [F32.div_val, h2]
    exact rnd_half _ (F32.rnd_val _)
  show (F32.add r.position.x (F32.div r.size.x 2)).val = _
  rw [F32.add_val, hhalf]
  rfl

/-! ## Facts about `legalize` -/

theorem legalizeLoop_eq (rest : List Rectangle) :
    ∀ (pre front : List Rectangle) (prev : Rectangle),
      (front ++ [prev]).length = pre.length →
      (List.range' pre.length rest.length).foldl (legalizeStep (pre ++ rest))
          (some (front ++ [prev]))
        = some (front ++ [prev] ++ placeAfter prev rest) := by
  induction rest with
  | nil => intro pre front prev _; simp [placeAfter]
  | cons r rest ih =>
    intro pre front prev hlen
    have hlen' : front.length + 1 = pre.length := by simpa using hlen
    have hr : (pre ++ r :: rest)[pre.length]? = some r := by
      rw [List.getElem?_append_right (le_refl _)]; simp
    have hp : (front ++ [prev])[pre.length - 1]? = some prev := by
      rw [← hlen']; simp
    have hstep : legalizeStep (pre ++ r :: rest) (some (front ++ [prev])) pre.length
        = some (front ++ [prev] ++ [shifted prev r]) := by
      simp only [legalizeStep, hr, hp]
    have hcells : pre ++ r :: rest = (pre ++ [r]) ++ rest := by simp
    have hlen2 : ((front ++ [prev]) ++ [shifted prev r]).length = (pre ++ [r]).length := by
      simp [hlen']
    have key := ih (pre ++ [r]) (front ++ [prev]) (shifted prev r) hlen2
    rw [List.length_cons, List.range'_succ, List.foldl_cons, hstep, hcells]
    have hl : (pre ++ [r]).length = pre.length + 1 := by simp
    rw [hl] at key
    rw [key]
    simp [placeAfter]

theorem legalize_cons (a : Rectangle) (rest : List Rectangle) :
    legalize (a :: rest) = some (a :: placeAfter a rest) := by
  have h := legalizeLoop_eq rest [a] [] a (by simp)
  simpa [legalize] using h

theorem legalize_nil : legalize [] = none := rfl

theorem placeAfter_length (rest : List Rectangle) :
    ∀ prev : Rectangle, (placeAfter prev rest).length = rest.length := by
  induction rest with
  | nil => intro prev; rfl
  | cons r rest ih => intro prev; simp [placeAfter, ih]

theorem shifted_clear (prev rect : Rectangle) :
    (shifted prev rect).position.x.val ≥ (F32.add prev.position.x prev.size.x).val := by
  show (stdMax rect.position.x (F32.add prev.position.x prev.size.x)).val ≥ _
  rw [stdMax_val]
  exact le_max_right _ _

theorem shifted_right (prev rect : Rectangle) :
    (shifted prev rect).position.x.val ≥ rect.position.x.val := by
  show (stdMax rect.position.x (F32.add prev.position.x prev.size.x)).val ≥ _
  rw [stdMax_val]
  exact le_max_left _ _

theorem placeAfter_adjacent (rest : List Rectangle) :
    ∀ (prev : Rectangle) (k : Nat) (hk : k + 1 < (prev :: placeAfter prev rest).length),
      (prev :: placeAfter prev rest)[k + 1].position.x.val
        ≥ (F32.add (prev :: placeAfter prev rest)[k].position.x
            (prev :: placeAfter prev rest)[k].size.x).val := by
  induction rest with
  | nil => intro prev k hk; simp [placeAfter] at hk
  | cons r rest ih =>
    intro prev k hk
    cases k with
    | zero => simpa [placeAfter] using shifted_clear prev r
    | succ k =>
      have hk2 : k + 1 < (shifted prev r :: placeAfter (shifted prev r) rest).length := by
        simpa [placeAfter] using hk
      simpa [placeAfter] using ih (shifted prev r) k hk2

theorem placeAfter_frame (rest : List Rectangle) :
    ∀ (prev : Rectangle) (k : Nat) (h1 : k < (placeAfter prev rest).length)
      (h2 : k < rest.length),
      (placeAfter prev rest)[k].position.x.val ≥ rest[k].position.x.val
        ∧ (placeAfter prev rest)[k].position.y = rest[k].position.y
        ∧ (placeAfter prev rest)[k].size = rest[k].size := by
  induction rest with
  | nil => intro prev k _ h2; simp at h2
  | cons r rest ih =>
    intro prev k h1 h2
    cases k with
    | zero =>
      simp only [placeAfter, List.getElem_cons_zero]
      exact ⟨shifted_right prev r, rfl, rfl⟩
    | succ k =>
      simp only [placeAfter, List.getElem_cons_succ]
      exact ih (shifted prev r) k _ _

/-- C1 (as stated, refuted). For the row of two cells at `x = 2^24` with width 1, which is
sorted, `legalize` returns the row unchanged: the right edge `2^24 + 1` of the first cell
rounds to `2^24` in `float`, so the second cell stays at `2^24`, left of the exact right
edge of the first. -/
theorem legalize_farRow_overlap :
    legalize farRow = some farRow ∧
    ∃ out, legalize farRow = some out ∧ ∃ (h0 : 0 < out.length) (h1 : 1 < out.length),
      ¬ (out[1].position.x.val ≥ out[0].position.x.val + out[0].size.x.val) := by
  have h : legalize farRow = some farRow := by decide!
  exact ⟨h, farRow, h, by decide, by decide, by decide!⟩

/-- C1 (amended). Legalization non-overlap up to rounding: for a non-empty row, `legalize`
returns a row `out` in which every cell at an index `k` with `1 ≤ k < length out` starts at
or after the right edge of the cell before it as the program computes that edge, the
`float` sum `out[k-1].position.x + out[k-1].size.x` (the exact sum rounded to binary32);
so the exact inequality holds whenever that exact sum is a binary32 number. -/
theorem legalize_non_overlap (row : List Rectangle) (hrow : row ≠ []) :
    ∃ out, legalize row = some out ∧
      ∀ (k : Nat) (_ : 1 ≤ k) (hk : k < out.length),
        out[k].position.x.val ≥ (F32.add out[k - 1].position.x out[k - 1].size.x).val ∧
        (F32.add out[k - 1].position.x out[k - 1].size.x).val
          = rnd (out[k - 1].position.x.val + out[k - 1].size.x.val) ∧
        (rnd (out[k - 1].position.x.val + out[k - 1].size.x.val)
            = out[k - 1].position.x.val + out[k - 1].size.x.val →
          out[k].position.x.val ≥ out[k - 1].position.x.val + out[k - 1].size.x.val) := by
  cases row with
  | nil => exact absurd rfl hrow
  | cons a rest =>
    refine ⟨a :: placeAfter a rest, legalize_cons a rest, ?_⟩
    intro k h1 hk
    obtain ⟨j, rfl⟩ : ∃ j, k = j + 1 := ⟨k - 1, by omega⟩
    have hadj := placeAfter_adjacent rest a j hk
    refine ⟨hadj, F32.add_val _ _, ?_⟩
    intro hexact
    rw [F32.add_val] at hadj
    simp only [Nat.add_sub_cancel] at hexact ⊢
    rw [hexact] at hadj
    exact hadj

theorem legalize_non_overlap_witness :
    sampleRow ≠ [] ∧
    ∃ out, legalize sampleRow = some out ∧
      ∀ (k : Nat) (_ : 1 ≤ k) (hk : k < out.length),
        out[k].position.x.val ≥ (F32.add out[k - 1].position.x out[k - 1].size.x).val ∧
        (F32.add out[k - 1].position.x out[k - 1].size.x).val
          = rnd (out[k - 1].position.x.val + out[k - 1].size.x.val) ∧
        (rnd (out[k - 1].position.x.val + out[k - 1].size.x.val)
            = out[k - 1].position.x.val + out[k - 1].size.x.val →
          out[k].position.x.val ≥ out[k - 1].position.x.val + out[k - 1].size.x.val) :=
  ⟨by decide, legalize_non_overlap sampleRow (by decide)⟩

/-- C2. Legalization only moves cells to the right: for a non-empty row, `legalize`
returns a row of the same length in which the cell at every index `k` has an x-position
not below the input's, the y-position and the size of the input cell, and whose first
cell is the first input cell. -/
theorem legalize_moves_right (row : List Rectangle) (hrow : row ≠ []) :
    ∃ out, legalize row = some out ∧ out.length = row.length ∧
      (∀ (k : Nat) (hk : k < row.length) (hk2 : k < out.length),
        out[k].position.x.val ≥ row[k].position.x.val
          ∧ out[k].position.y = row[k].position.y
          ∧ out[k].size = row[k].size) ∧
      out[0]? = row[0]? := by
  cases row with
  | nil => exact absurd rfl hrow
  | cons a rest =>
    refine ⟨a :: placeAfter a rest, legalize_cons a rest, ?_, ?_, ?_⟩
    · simp [placeAfter_length]
    · intro k hk hk2
      cases k with
      | zero => simp
      | succ k =>
        simp only [List.getElem_cons_succ]
        exact placeAfter_frame rest a k _ _
    · simp

theorem legalize_moves_right_witness :
    sampleRow ≠ [] ∧
    ∃ out, legalize sampleRow = some out ∧ out.length = sampleRow.length ∧
      (∀ (k : Nat) (hk : k < sampleRow.length) (hk2 : k < out.length),
        out[k].position.x.val ≥ sampleRow[k].position.x.val
          ∧ out[k].position.y = sampleRow[k].position.y
          ∧ out[k].size = sampleRow[k].size) ∧
      out[0]? = sampleRow[0]? :=
  ⟨by decide, legalize_moves_right sampleRow (by decide)⟩

/-! ## Facts about `stdMerge` -/

theorem stdMerge_nil_left (comp : Rectangle → Rectangle → Bool) (ys : List Rectangle) :
    stdMerge comp [] ys = ys := rfl

theorem stdMerge_nil_right (comp : Rectangle → Rectangle → Bool) (xs : List Rectangle) :
    stdMerge comp xs [] = xs := by
  cases xs <;> rfl

theorem stdMerge_cons_cons (comp : Rectangle → Rectangle → Bool) (a b : Rectangle)
    (xs ys : List Rectangle) :
    stdMerge comp (a :: xs) (b :: ys)
      = if comp b a then b :: stdMerge comp (a :: xs) ys
        else a :: stdMerge comp xs (b :: ys) := rfl

theorem centerLess_iff (a b : Rectangle) : centerLess a b = true ↔ a.center.x.val < b.center.x.val := by
  simp [centerLess]

theorem stdMerge_perm (comp : Rectangle → Rectangle → Bool) (xs : List Rectangle) :
    ∀ ys, (stdMerge comp xs ys).Perm (xs ++ ys) := by
  induction xs with
  | nil => intro ys; simp [stdMerge_nil_left]
  | cons a xs ihx =>
    intro ys
    induction ys with
    | nil => simp [stdMerge_nil_right]
    | cons b ys ihy =>
      rw [stdMerge_cons_cons]
      split
      · exact (List.Perm.cons b ihy).trans List.perm_middle.symm
      · exact List.Perm.cons a (ihx (b :: ys))

theorem mem_stdMerge (comp : Rectangle → Rectangle → Bool) (xs ys : List Rectangle)
    (z : Rectangle) : z ∈ stdMerge comp xs ys ↔ z ∈ xs ∨ z ∈ ys := by
  rw [(stdMerge_perm comp xs ys).mem_iff, List.mem_append]

theorem stdMerge_ascending (xs : List Rectangle) :
    ∀ ys, AscendingByCenter xs → AscendingByCenter ys →
      AscendingByCenter (stdMerge centerLess xs ys) := by
  induction xs with
  | nil => intro ys _ hy; simpa [stdMerge_nil_left] using hy
  | cons a xs ihx =>
    intro ys
    induction ys with
    | nil => intro hx _; simpa [stdMerge_nil_right] using hx
    | cons b ys ihy =>
      intro hx hy
      have hx' := List.pairwise_cons.mp hx
      have hy' := List.pairwise_cons.mp hy
      rw [stdMerge_cons_cons]
      split
      · next hlt =>
        have hba : b.center.x.val < a.center.x.val := (centerLess_iff b a).mp hlt
        refine List.pairwise_cons.mpr ⟨?_, ihy hx hy'.2⟩
        intro z hz
        rcases (mem_stdMerge _ _ _ z).mp hz with hz | hz
        · rcases List.mem_cons.mp hz with rfl | hz
          · exact hba.le
          · exact hba.le.trans (hx'.1 z hz)
        · exact hy'.1 z hz
      · next hge =>
        have hab : a.center.x.val ≤ b.center.x.val := by
          rw [centerLess_iff] at hge; exact not_lt.mp hge
        refine List.pairwise_cons.mpr ⟨?_, ihx (b :: ys) hx'.2 hy⟩
        intro z hz
        rcases (mem_stdMerge _ _ _ z).mp hz with hz | hz
        · exact hx'.1 z hz
        · rcases List.mem_cons.mp hz with rfl | hz
          · exact hab
          · exact hab.trans (hy'.1 z hz)

theorem stdMerge_append_of_ascending (xs : List Rectangle) :
    ∀ ys, AscendingByCenter (xs ++ ys) → stdMerge centerLess xs ys = xs ++ ys := by
  induction xs with
  | nil => intro ys _; rfl
  | cons a xs ihx =>
    intro ys h
    cases ys with
    | nil => simp [stdMerge_nil_right]
    | cons b ys =>
      have h' := List.pairwise_cons.mp
        (show List.Pairwise (fun a b => a.center.x.val ≤ b.center.x.val) (a :: (xs ++ b :: ys)) from h)
      have hab : a.center.x.val ≤ b.center.x.val := h'.1 b (by simp)
      have hnot : ¬ centerLess b a = true := by
        rw [centerLess_iff]; exact not_lt.mpr hab
      rw [stdMerge_cons_cons, if_neg hnot, ihx (b :: ys) h'.2]
      rfl

theorem stdMerge_filter (c : ℚ) (xs : List Rectangle) :
    ∀ ys, AscendingByCenter xs →
      (stdMerge centerLess xs ys).filter (fun r => decide (r.center.x.val = c))
        = xs.filter (fun r => decide (r.center.x.val = c))
          ++ ys.filter (fun r => decide (r.center.x.val = c)) := by
  induction xs with
  | nil => intro ys _; simp [stdMerge_nil_left]
  | cons a xs ihx =>
    intro ys
    induction ys with
    | nil => intro _; simp [stdMerge_nil_right]
    | cons b ys ihy =>
      intro hx
      have hx' := List.pairwise_cons.mp hx
      rw [stdMerge_cons_cons]
      split
      · next hlt =>
        have hba : b.center.x.val < a.center.x.val := (centerLess_iff b a).mp hlt
        have hb2 : ∀ l : List Rectangle, (b :: l).filter (fun r => decide (r.center.x.val = c))
            = if b.center.x.val = c then b :: l.filter (fun r => decide (r.center.x.val = c))
              else l.filter (fun r => decide (r.center.x.val = c)) := by
          intro l; simp [List.filter_cons]
        rw [hb2, hb2, ihy hx]
        by_cases hb : b.center.x.val = c
        · have hnone : (a :: xs).filter (fun r => decide (r.center.x.val = c)) = [] := by
            rw [List.filter_eq_nil_iff]
            intro z hz
            have hz' : a.center.x.val ≤ z.center.x.val := by
              rcases List.mem_cons.mp hz with rfl | hz
              · exact le_refl _
              · exact hx'.1 z hz
            have : c < z.center.x.val := hb ▸ (hba.trans_le hz')
            simpa using this.ne'
          simp only [if_pos hb, hnone, List.nil_append]
        · simp only [if_neg hb]
      · have ha2 : ∀ l : List Rectangle, (a :: l).filter (fun r => decide (r.center.x.val = c))
            = if a.center.x.val = c then a :: l.filter (fun r => decide (r.center.x.val = c))
              else l.filter (fun r => decide (r.center.x.val = c)) := by
          intro l; simp [List.filter_cons]
        rw [ha2, ha2, ihx (b :: ys) hx'.2]
        by_cases ha : a.center.x.val = c
        · simp only [if_pos ha, List.cons_append]
        · simp only [if_neg ha]

/-! ## Facts about `mergeSort` -/

theorem mergeSort_zero (range : List Rectangle) : mergeSort 0 range = none := rfl

theorem mergeSort_single (fuel : Nat) (a : Rectangle) :
    mergeSort (fuel + 1) [a] = some [a] := rfl

theorem mergeSort_split (fuel : Nat) (range : List Rectangle) (hne : ∀ a, range ≠ [a]) :
    mergeSort (fuel + 1) range
      = (mergeSort fuel (range.take (range.length / 2))).bind (fun first =>
          (mergeSort fuel (range.drop (range.length / 2))).bind (fun second =>
            some (stdMerge centerLess first second))) := by
  have hmatch : ∀ (o1 o2 : Option (List Rectangle)),
      (match o1 with
        | none => none
        | some first =>
          match o2 with
          | none => none
          | some second => some (stdMerge centerLess first second))
        = o1.bind (fun first => o2.bind (fun second =>
            some (stdMerge centerLess first second))) := by
    intro o1 o2; cases o1 <;> cases o2 <;> rfl
  rcases range with _ | ⟨a, _ | ⟨b, rest⟩⟩
  · rw [mergeSort]
    · exact hmatch _ _
    · intro single h; exact hne single h
  · exact absurd rfl (hne a)
  · rw [mergeSort]
    · exact hmatch _ _
    · intro single h; exact hne single h

theorem mergeSort_nil : ∀ fuel, mergeSort fuel [] = none := by
  intro fuel
  induction fuel with
  | zero => rfl
  | succ fuel ih =>
    rw [mergeSort_split fuel [] (by intro a; simp)]
    simp [ih]

theorem mergeSort_cases (P : List Rectangle → List Rectangle → Prop)
    (hsingle : ∀ a, P [a] [a])
    (hstep : ∀ range first second, P (range.take (range.length / 2)) first →
      P (range.drop (range.length / 2)) second →
      P range (stdMerge centerLess first second)) :
    ∀ fuel range out, mergeSort fuel range = some out → P range out := by
  intro fuel
  induction fuel with
  | zero => intro range out h; simp [mergeSort_zero] at h
  | succ fuel ih =>
    intro range out h
    by_cases hs : ∃ a, range = [a]
    · obtain ⟨a, rfl⟩ := hs
      rw [mergeSort_single] at h
      cases h
      exact hsingle a
    · rw [mergeSort_split fuel range (fun a ha => hs ⟨a, ha⟩)] at h
      obtain ⟨first, hfirst, h⟩ := Option.bind_eq_some.mp h
      obtain ⟨second, hsecond, h⟩ := Option.bind_eq_some.mp h
      cases h
      exact hstep range first second (ih _ _ hfirst) (ih _ _ hsecond)

theorem mergeSort_ascending (fuel : Nat) (range out : List Rectangle)
    (h : mergeSort fuel range = some out) : AscendingByCenter out := by
  refine mergeSort_cases (fun _ out => AscendingByCenter out) ?_ ?_ fuel range out h
  · intro a; exact List.pairwise_singleton _ a
  · intro _ first second h1 h2; exact stdMerge_ascending first second h1 h2

theorem mergeSort_perm (fuel : Nat) (range out : List Rectangle)
    (h : mergeSort fuel range = some out) : out.Perm range := by
  refine mergeSort_cases (fun range out => out.Perm range) ?_ ?_ fuel range out h
  · intro a; exact List.Perm.refl _
  · intro range first second h1 h2
    have := (stdMerge_perm centerLess first second).trans (List.Perm.append h1 h2)
    rwa [List.take_append_drop] at this

theorem mergeSort_filter (c : ℚ) (fuel : Nat) (range out : List Rectangle)
    (h : mergeSort fuel range = some out) :
    out.filter (fun r => decide (r.center.x.val = c))
      = range.filter (fun r => decide (r.center.x.val = c)) := by
  have key := mergeSort_cases
    (fun range out => AscendingByCenter out ∧
      out.filter (fun r => decide (r.center.x.val = c))
        = range.filter (fun r => decide (r.center.x.val = c))) ?_ ?_ fuel range out h
  · exact key.2
  · intro a; exact ⟨List.pairwise_singleton _ a, rfl⟩
  · intro range first second h1 h2
    refine ⟨stdMerge_ascending first second h1.1 h2.1, ?_⟩
    rw [stdMerge_filter c first second h1.1, h1.2, h2.2, ← List.filter_append,
      List.take_append_drop]

theorem mergeSort_returns : ∀ (fuel : Nat) (range : List Rectangle),
    range ≠ [] → range.length ≤ fuel → ∃ out, mergeSort fuel range = some out := by
  intro fuel
  induction fuel with
  | zero =>
    intro range hne hlen
    exact absurd (List.length_eq_zero.mp (Nat.le_zero.mp hlen)) hne
  | succ fuel ih =>
    intro range hne hlen
    by_cases hs : ∃ a, range = [a]
    · obtain ⟨a, rfl⟩ := hs
      exact ⟨[a], rfl⟩
    · have hpos : 0 < range.length := List.length_pos.mpr hne
      have h2 : 2 ≤ range.length := by
        rcases Nat.lt_or_ge range.length 2 with h | h
        · exact absurd (List.length_eq_one.mp (by omega)) hs
        · exact h
      have htake : (range.take (range.length / 2)).length = range.length / 2 := by
        rw [List.length_take]; omega
      have hdrop : (range.drop (range.length / 2)).length
          = range.length - range.length / 2 := List.length_drop _ _
      obtain ⟨first, hfirst⟩ := ih (range.take (range.length / 2))
        (by intro h0; rw [h0] at htake; simp at htake; omega) (by omega)
      obtain ⟨second, hsecond⟩ := ih (range.drop (range.length / 2))
        (by intro h0; rw [h0] at hdrop; simp at hdrop; omega) (by omega)
      refine ⟨stdMerge centerLess first second, ?_⟩
      rw [mergeSort_split fuel range (fun a ha => hs ⟨a, ha⟩), hfirst, hsecond]
      rfl

theorem mergeSort_mono : ∀ (fuel more : Nat) (range out : List Rectangle),
    mergeSort fuel range = some out → fuel ≤ more → mergeSort more range = some out := by
  intro fuel
  induction fuel with
  | zero => intro more range out h; simp [mergeSort_zero] at h
  | succ fuel ih =>
    intro more range out h hle
    obtain ⟨more, rfl⟩ : ∃ m, more = m + 1 := ⟨more - 1, by omega⟩
    by_cases hs : ∃ a, range = [a]
    · obtain ⟨a, rfl⟩ := hs
      rw [mergeSort_single] at h ⊢
      exact h
    · rw [mergeSort_split fuel range (fun a ha => hs ⟨a, ha⟩)] at h
      obtain ⟨first, hfirst, h⟩ := Option.bind_eq_some.mp h
      obtain ⟨second, hsecond, h⟩ := Option.bind_eq_some.mp h
      rw [mergeSort_split more range (fun a ha => hs ⟨a, ha⟩),
        ih more _ _ hfirst (by omega), ih more _ _ hsecond (by omega)]
      exact h

theorem mergeSort_unique (fuel more : Nat) (range out res : List Rectangle)
    (h1 : mergeSort fuel range = some out) (h2 : mergeSort more range = some res) :
    res = out := by
  have a := mergeSort_mono fuel (max fuel more) range out h1 (le_max_left _ _)
  have b := mergeSort_mono more (max fuel more) range res h2 (le_max_right _ _)
  rw [a] at b
  exact (Option.some.inj b).symm

theorem mergeSort_of_ascending : ∀ (fuel : Nat) (range : List Rectangle),
    range ≠ [] → range.length ≤ fuel → AscendingByCenter range →
    mergeSort fuel range = some range := by
  intro fuel
  induction fuel with
  | zero =>
    intro range hne hlen
    exact absurd (List.length_eq_zero.mp (Nat.le_zero.mp hlen)) hne
  | succ fuel ih =>
    intro range hne hlen hasc
    by_cases hs : ∃ a, range = [a]
    · obtain ⟨a, rfl⟩ := hs
      rfl
    · have hpos : 0 < range.length := List.length_pos.mpr hne
      have h2 : 2 ≤ range.length := by
        rcases Nat.lt_or_ge range.length 2 with h | h
        · exact absurd (List.length_eq_one.mp (by omega)) hs
        · exact h
      have htake : (range.take (range.length / 2)).length = range.length / 2 := by
        rw [List.length_take]; omega
      have hdrop : (range.drop (range.length / 2)).length
          = range.length - range.length / 2 := List.length_drop _ _
      have hfirst := ih (range.take (range.length / 2))
        (by intro h0; rw [h0] at htake; simp at htake; omega) (by omega)
        (List.Pairwise.sublist (List.take_sublist _ _) hasc)
      have hsecond := ih (range.drop (range.length / 2))
        (by intro h0; rw [h0] at hdrop; simp at hdrop; omega) (by omega)
        (List.Pairwise.sublist (List.drop_sublist _ _) hasc)
      rw [mergeSort_split fuel range (fun a ha => hs ⟨a, ha⟩), hfirst, hsecond]
      simp only [Option.bind]
      rw [stdMerge_append_of_ascending _ _ (by rw [List.take_append_drop]; exact hasc),
        List.take_append_drop]

/-! ## Results about `sortByX` -/

theorem sortByX_returns (xs : List Rectangle) (hxs : xs ≠ []) :
    ∃ out, (∀ fuel, xs.length ≤ fuel → sortByX fuel xs = some out) ∧
      (∀ fuel res, sortByX fuel xs = some res → res = out) := by
  obtain ⟨out, hout⟩ := mergeSort_returns xs.length xs hxs (le_refl _)
  refine ⟨out, ?_, ?_⟩
  · intro fuel hfuel
    exact mergeSort_mono xs.length fuel xs out hout hfuel
  · intro fuel res hres
    exact mergeSort_unique xs.length fuel xs out res hout hres

theorem filter_exactCenter (c : ℚ) (l : List Rectangle) :
    l.filter (fun r => decide (r.exactCenterX = c))
      = (l.filter (fun r => decide (r.center.x.val = rnd c))).filter
          (fun r => decide (r.exactCenterX = c)) := by
  rw [List.filter_filter]
  apply List.filter_congr
  intro r _
  by_cases h : r.exactCenterX = c
  · simp [h, center_x_val]
  · simp [h]

/-- C4 (as stated, refuted). For the two library cells of `tieCells` the sort returns the
input order, in which the exact centre `x + w/2` of the first cell, `2^25 + 10`, is above
that of the second, `2^25 + 8`: both centres are `2^25 + 8` once rounded to `float`. -/
theorem sortByX_tieCells_not_ascending :
    sortByX 2 tieCells = some tieCells ∧
    ∃ out, sortByX 2 tieCells = some out ∧ ∃ (h0 : 0 < out.length) (h1 : 0 + 1 < out.length),
      ¬ (out[0].position.x.val + out[0].size.x.val / 2
          ≤ out[0 + 1].position.x.val + out[0 + 1].size.x.val / 2) := by
  have h : sortByX 2 tieCells = some tieCells := by decide!
  exact ⟨h, tieCells, h, by decide, by decide, by decide!⟩

/-- C4 (amended). Sort order: for a non-empty cell sequence `xs`, `sortByX` returns (with
any recursion budget of at least `length xs`, and never anything else) a sequence `out`
that is ascending by the centre x the program computes: `center(out[i]).x ≤
center(out[i+1]).x` whenever `i + 1 < length out`, where `center(r).x` is the `float`
value of `r.position.x + r.size.x / 2`, the exact centre rounded to binary32. -/
theorem sortByX_ascending (xs : List Rectangle) (hxs : xs ≠ []) :
    ∃ out, (∀ fuel, xs.length ≤ fuel → sortByX fuel xs = some out) ∧
      (∀ fuel res, sortByX fuel xs = some res → res = out) ∧
      (∀ (i : Nat) (hi : i + 1 < out.length),
        out[i].center.x.val ≤ out[i + 1].center.x.val) ∧
      (∀ r : Rectangle, r.center.x.val = rnd (r.position.x.val + r.size.x.val / 2)) := by
  obtain ⟨out, hall, huniq⟩ := sortByX_returns xs hxs
  refine ⟨out, hall, huniq, ?_, center_x_val⟩
  intro i hi
  have hasc : AscendingByCenter out :=
    mergeSort_ascending xs.length xs out (hall xs.length (le_refl _))
  exact (List.pairwise_iff_getElem.mp hasc) i (i + 1) (by omega) hi (by omega)

theorem sortByX_ascending_witness :
    sampleCells ≠ [] ∧
    ∃ out, (∀ fuel, sampleCells.length ≤ fuel → sortByX fuel sampleCells = some out) ∧
      (∀ fuel res, sortByX fuel sampleCells = some res → res = out) ∧
      (∀ (i : Nat) (hi : i + 1 < out.length),
        out[i].center.x.val ≤ out[i + 1].center.x.val) ∧
      (∀ r : Rectangle, r.center.x.val = rnd (r.position.x.val + r.size.x.val / 2)) :=
  ⟨by decide, sortByX_ascending sampleCells (by decide)⟩

/-- C5 (what the code does). On the empty sequence `sortByX` yields no result, whatever
the recursion budget: the empty range is not the base case of `mergeSort`, it is split
into two empty ranges and the recursion never ends. -/
theorem sortByX_nil_no_result : ∀ fuel, sortByX fuel [] = none :=
  mergeSort_nil

/-- C6. Tie-break and stability: `std::merge` with the comparator of `mergeSort` takes the
head of the left half whenever the two heads have equal centre x (equal exact centres
`position.x + size.x / 2`, and more generally equal centres as computed in `float`); and
for a non-empty sequence `xs` the result `out` of `sortByX` lists the cells of any given
centre x (exact, or as computed) in the order in which `xs` lists them. -/
theorem sortByX_stable (xs : List Rectangle) (hxs : xs ≠ []) :
    (∀ (a b : Rectangle) (first second : List Rectangle),
      a.position.x.val + a.size.x.val / 2 = b.position.x.val + b.size.x.val / 2 →
      stdMerge centerLess (a :: first) (b :: second)
        = a :: stdMerge centerLess first (b :: second)) ∧
    (∀ (a b : Rectangle) (first second : List Rectangle), a.center.x.val = b.center.x.val →
      stdMerge centerLess (a :: first) (b :: second)
        = a :: stdMerge centerLess first (b :: second)) ∧
    ∃ out, (∀ fuel, xs.length ≤ fuel → sortByX fuel xs = some out) ∧
      (∀ fuel res, sortByX fuel xs = some res → res = out) ∧
      (∀ c : ℚ, out.filter (fun r => decide (r.position.x.val + r.size.x.val / 2 = c))
        = xs.filter (fun r => decide (r.position.x.val + r.size.x.val / 2 = c))) ∧
      (∀ c : ℚ, out.filter (fun r => decide (r.center.x.val = c))
        = xs.filter (fun r => decide (r.center.x.val = c))) := by
  have htie : ∀ (a b : Rectangle) (first second : List Rectangle),
      a.center.x.val = b.center.x.val →
      stdMerge centerLess (a :: first) (b :: second)
        = a :: stdMerge centerLess first (b :: second) := by
    intro a b first second hab
    have hnot : ¬ centerLess b a = true := by
      rw [centerLess_iff, hab]; exact lt_irrefl _
    rw [stdMerge_cons_cons, if_neg hnot]
  refine ⟨?_, htie, ?_⟩
  · intro a b first second hab
    apply htie
    rw [center_x_val, center_x_val]
    exact congrArg rnd hab
  · obtain ⟨out, hall, huniq⟩ := sortByX_returns xs hxs
    have hfloat : ∀ c : ℚ, out.filter (fun r => decide (r.center.x.val = c))
        = xs.filter (fun r => decide (r.center.x.val = c)) :=
      fun c => mergeSort_filter c xs.length xs out (hall xs.length (le_refl _))
    refine ⟨out, hall, huniq, ?_, hfloat⟩
    intro c
    have h1 := filter_exactCenter c out
    have h2 := filter_exactCenter c xs
    simp only [Rectangle.exactCenterX] at h1 h2
    rw [h1, h2, hfloat]

theorem sortByX_stable_witness :
    sampleCells ≠ [] ∧
    ((∀ (a b : Rectangle) (first second : List Rectangle),
      a.position.x.val + a.size.x.val / 2 = b.position.x.val + b.size.x.val / 2 →
      stdMerge centerLess (a :: first) (b :: second)
        = a :: stdMerge centerLess first (b :: second)) ∧
    (∀ (a b : Rectangle) (first second : List Rectangle), a.center.x.val = b.center.x.val →
      stdMerge centerLess (a :: first) (b :: second)
        = a :: stdMerge centerLess first (b :: second)) ∧
    ∃ out, (∀ fuel, sampleCells.length ≤ fuel → sortByX fuel sampleCells = some out) ∧
      (∀ fuel res, sortByX fuel sampleCells = some res → res = out) ∧
      (∀ c : ℚ, out.filter (fun r => decide (r.position.x.val + r.size.x.val / 2 = c))
        = sampleCells.filter (fun r => decide (r.position.x.val + r.size.x.val / 2 = c))) ∧
      (∀ c : ℚ, out.filter (fun r => decide (r.center.x.val = c))
        = sampleCells.filter (fun r => decide (r.center.x.val = c)))) :=
  ⟨by decide, sortByX_stable sampleCells (by decide)⟩

/-- C7. Sort idempotence: for a non-empty sequence `xs`, `sortByX` returns a sequence
`out`, and `sortByX` applied to `out` returns `out` again. -/
theorem sortByX_idempotent (xs : List Rectangle) (hxs : xs ≠ []) :
    ∃ out, (∀ fuel, xs.length ≤ fuel → sortByX fuel xs = some out) ∧
      (∀ fuel res, sortByX fuel xs = some res → res = out) ∧
      (∀ fuel, out.length ≤ fuel → sortByX fuel out = some out) ∧
      (∀ fuel res, sortByX fuel out = some res → res = out) := by
  obtain ⟨out, hall, huniq⟩ := sortByX_returns xs hxs
  have hout := hall xs.length (le_refl _)
  have hperm := mergeSort_perm xs.length xs out hout
  have hne : out ≠ [] := by
    intro h0
    rw [h0] at hperm
    exact hxs (List.nil_perm.mp hperm)
  have hasc := mergeSort_ascending xs.length xs out hout
  have hfix : ∀ fuel, out.length ≤ fuel → sortByX fuel out = some out :=
    fun fuel hfuel => mergeSort_of_ascending fuel out hne hfuel hasc
  refine ⟨out, hall, huniq, hfix, ?_⟩
  intro fuel res hres
  exact mergeSort_unique out.length fuel out out res (hfix out.length (le_refl _)) hres

theorem sortByX_idempotent_witness :
    sampleCells ≠ [] ∧
    ∃ out, (∀ fuel, sampleCells.length ≤ fuel → sortByX fuel sampleCells = some out) ∧
      (∀ fuel res, sortByX fuel sampleCells = some res → res = out) ∧
      (∀ fuel, out.length ≤ fuel → sortByX fuel out = some out) ∧
      (∀ fuel res, sortByX fuel out = some res → res = out) :=
  ⟨by decide, sortByX_idempotent sampleCells (by decide)⟩

/-- C17. Sorting is a permutation: for a non-empty sequence `xs`, `sortByX` returns a
sequence of the same length that holds every cell exactly as often as `xs` does. -/
theorem sortByX_permutes (xs : List Rectangle) (hxs : xs ≠ []) :
    ∃ out, (∀ fuel, xs.length ≤ fuel → sortByX fuel xs = some out) ∧
      (∀ fuel res, sortByX fuel xs = some res → res = out) ∧
      out.length = xs.length ∧ out.Perm xs ∧ ∀ c : Rectangle, out.count c = xs.count c := by
  obtain ⟨out, hall, huniq⟩ := sortByX_returns xs hxs
  have hperm := mergeSort_perm xs.length xs out (hall xs.length (le_refl _))
  exact ⟨out, hall, huniq, hperm.length_eq, hperm, fun c => hperm.count_eq c⟩

theorem sortByX_permutes_witness :
    sampleCells ≠ [] ∧
    ∃ out, (∀ fuel, sampleCells.length ≤ fuel → sortByX fuel sampleCells = some out) ∧
      (∀ fuel res, sortByX fuel sampleCells = some res → res = out) ∧
      out.length = sampleCells.length ∧ out.Perm sampleCells ∧
      ∀ c : Rectangle, out.count c = sampleCells.count c :=
  ⟨by decide, sortByX_permutes sampleCells (by decide)⟩

/-! ## Results about `snapToGrid` -/

theorem foldl_push_map (f : Rectangle → Rectangle) (cells : List Rectangle) :
    ∀ acc : List Rectangle,
      cells.foldl (fun out rect => out ++ [f rect]) acc = acc ++ cells.map f := by
  induction cells with
  | nil => intro acc; simp
  | cons r cells ih => intro acc; simp [ih]

theorem snapToGrid_eq_map (cells : List Rectangle) (grid : Point) :
    snapToGrid cells grid = cells.map (snapCell grid) := by
  simp [snapToGrid, foldl_push_map]

theorem snap_coordinate_val (p g : F32) :
    (F32.mul (F32.floor (F32.div p g)) g).val
      = rnd (((⌊rnd (p.val / g.val)⌋ : ℤ) : ℚ) * g.val) := by
  rw [F32.mul_val, F32.floor_val, F32.div_val]

theorem F32.mul_congr (a b g : F32) (h : a.val = b.val) : F32.mul a g = F32.mul b g := by
  simp only [F32.mul, h]

theorem snap_coordinate_again (p g : F32) (hg : g.val ≠ 0)
    (hexact : rnd (((⌊rnd (p.val / g.val)⌋ : ℤ) : ℚ) * g.val)
      = ((⌊rnd (p.val / g.val)⌋ : ℤ) : ℚ) * g.val) :
    F32.mul (F32.floor (F32.div (F32.mul (F32.floor (F32.div p g)) g) g)) g
      = F32.mul (F32.floor (F32.div p g)) g := by
  apply F32.mul_congr
  have hn : rnd (((⌊rnd (p.val / g.val)⌋ : ℤ) : ℚ)) = ((⌊rnd (p.val / g.val)⌋ : ℤ) : ℚ) :=
    rnd_floor _ (rnd_rnd _)
  rw [F32.floor_val, F32.floor_val, F32.div_val, F32.div_val, snap_coordinate_val, hexact,
    mul_div_cancel_right₀ _ hg, hn, Int.floor_intCast]

/-- C9 (as stated, refuted). On the grid of pitch `0.3f` the cell at `x = 25.5` is snapped
to `x = 25.5 + 2^-19`: the quotient `25.5 / 0.3f` rounds up to `85` and the product
`85 * 0.3f` is rounded again. The result is not `floor(25.5 / 0.3f) * 0.3f` and is no
integer multiple of `0.3f`. -/
theorem snapToGrid_fineCell_off_grid :
    fineGrid.x.val ≠ 0 ∧ fineGrid.y.val ≠ 0 ∧
    ∃ s, (snapToGrid [fineCell] fineGrid)[0]? = some s ∧
      s.position.x.val = 51 / 2 + 1 / 2 ^ 19 ∧
      s.position.x.val
        ≠ ((⌊fineCell.position.x.val / fineGrid.x.val⌋ : ℤ) : ℚ) * fineGrid.x.val ∧
      ¬ ∃ m : ℤ, s.position.x.val = (m : ℚ) * fineGrid.x.val := by
  refine ⟨by decide!, by decide!, snapCell fineGrid fineCell, by decide!, by decide!,
    by decide!, ?_⟩
  rintro ⟨m, hm⟩
  have hg : 0 < fineGrid.x.val := by decide!
  have h1 : 85 * fineGrid.x.val < (snapCell fineGrid fineCell).position.x.val := by decide!
  have h2 : (snapCell fineGrid fineCell).position.x.val < 86 * fineGrid.x.val := by decide!
  rw [hm] at h1 h2
  have h3 : (85 : ℚ) < (m : ℚ) := lt_of_mul_lt_mul_right h1 hg.le
  have h4 : (m : ℚ) < 86 := lt_of_mul_lt_mul_right h2 hg.le
  have h5 : (85 : ℤ) < m := by exact_mod_cast h3
  have h6 : m < (86 : ℤ) := by exact_mod_cast h4
  omega

/-- C9 (amended). Snap contract: for a grid with nonzero components `snapToGrid` returns a
sequence of the same length whose `k`-th cell has the size of the `k`-th input cell and
the position `floor(position / grid) * grid` componentwise with every operation carried
out in `float`: the quotient is rounded before the floor is taken and the product is
rounded. Hence every output coordinate is the binary32 number nearest to an integer
multiple of the grid component. -/
theorem snapToGrid_contract (cells : List Rectangle) (grid : Point)
    (_ : grid.x.val ≠ 0) (_ : grid.y.val ≠ 0) :
    (snapToGrid cells grid).length = cells.length ∧
    ∀ (k : Nat) (hk : k < cells.length) (hk2 : k < (snapToGrid cells grid).length),
      (snapToGrid cells grid)[k].size = cells[k].size ∧
      (snapToGrid cells grid)[k].position
        = (Point.floor (cells[k].position.div grid)).mul grid ∧
      (snapToGrid cells grid)[k].position.x.val
        = rnd (((⌊rnd (cells[k].position.x.val / grid.x.val)⌋ : ℤ) : ℚ) * grid.x.val) ∧
      (snapToGrid cells grid)[k].position.y.val
        = rnd (((⌊rnd (cells[k].position.y.val / grid.y.val)⌋ : ℤ) : ℚ) * grid.y.val) ∧
      (∃ m : ℤ, (snapToGrid cells grid)[k].position.x.val = rnd ((m : ℚ) * grid.x.val)) ∧
      (∃ n : ℤ, (snapToGrid cells grid)[k].position.y.val = rnd ((n : ℚ) * grid.y.val)) := by
  refine ⟨by simp [snapToGrid_eq_map], ?_⟩
  intro k hk hk2
  have hcell : (snapToGrid cells grid)[k] = snapCell grid cells[k] := by
    simp [snapToGrid_eq_map]
  rw [hcell]
  have hx := snap_coordinate_val cells[k].position.x grid.x
  have hy := snap_coordinate_val cells[k].position.y grid.y
  exact ⟨rfl, rfl, hx, hy, ⟨_, hx⟩, ⟨_, hy⟩⟩

theorem snapToGrid_contract_witness :
    mainGrid.x.val ≠ 0 ∧ mainGrid.y.val ≠ 0 ∧
    ((snapToGrid offGridCells mainGrid).length = offGridCells.length ∧
    ∀ (k : Nat) (hk : k < offGridCells.length)
      (hk2 : k < (snapToGrid offGridCells mainGrid).length),
      (snapToGrid offGridCells mainGrid)[k].size = offGridCells[k].size ∧
      (snapToGrid offGridCells mainGrid)[k].position
        = (Point.floor (offGridCells[k].position.div mainGrid)).mul mainGrid ∧
      (snapToGrid offGridCells mainGrid)[k].position.x.val
        = rnd (((⌊rnd (offGridCells[k].position.x.val / mainGrid.x.val)⌋ : ℤ) : ℚ)
            * mainGrid.x.val) ∧
      (snapToGrid offGridCells mainGrid)[k].position.y.val
        = rnd (((⌊rnd (offGridCells[k].position.y.val / mainGrid.y.val)⌋ : ℤ) : ℚ)
            * mainGrid.y.val) ∧
      (∃ m : ℤ, (snapToGrid offGridCells mainGrid)[k].position.x.val
        = rnd ((m : ℚ) * mainGrid.x.val)) ∧
      (∃ n : ℤ, (snapToGrid offGridCells mainGrid)[k].position.y.val
        = rnd ((n : ℚ) * mainGrid.y.val))) :=
  ⟨by decide!, by decide!,
    snapToGrid_contract offGridCells mainGrid (by decide!) (by decide!)⟩

/-- C10 (as stated, refuted). Snapping is not idempotent in `float`: on the grid of pitch
`0.3f` the cell at `y = 9.25` is snapped to `y = 9`, and snapping that again gives
`29 * 0.3f` rounded, which is below `9`. -/
theorem snapToGrid_fineCell_not_idempotent :
    fineGrid.x.val ≠ 0 ∧ fineGrid.y.val ≠ 0 ∧
    snapToGrid (snapToGrid [fineCell] fineGrid) fineGrid ≠ snapToGrid [fineCell] fineGrid ∧
    ∃ s t, (snapToGrid [fineCell] fineGrid)[0]? = some s ∧
      (snapToGrid (snapToGrid [fineCell] fineGrid) fineGrid)[0]? = some t ∧
      s.position.y.val = 9 ∧ t.position.y.val < 9 := by
  refine ⟨by decide!, by decide!, by decide!, snapCell fineGrid fineCell,
    snapCell fineGrid (snapCell fineGrid fineCell), by decide!, by decide!, by decide!,
    by decide!⟩

/-- C10 (amended). Snap idempotence where the snap is exact: for a grid with nonzero
components and cells for which the products `floor(position / grid) * grid` of the snap
need no rounding (they are binary32 numbers),
`snapToGrid (snapToGrid R g) g = snapToGrid R g`. -/
theorem snapToGrid_idempotent (cells : List Rectangle) (grid : Point)
    (hx : grid.x.val ≠ 0) (hy : grid.y.val ≠ 0)
    (hexact : ∀ c ∈ cells,
      rnd (((⌊rnd (c.position.x.val / grid.x.val)⌋ : ℤ) : ℚ) * grid.x.val)
        = ((⌊rnd (c.position.x.val / grid.x.val)⌋ : ℤ) : ℚ) * grid.x.val ∧
      rnd (((⌊rnd (c.position.y.val / grid.y.val)⌋ : ℤ) : ℚ) * grid.y.val)
        = ((⌊rnd (c.position.y.val / grid.y.val)⌋ : ℤ) : ℚ) * grid.y.val) :
    snapToGrid (snapToGrid cells grid) grid = snapToGrid cells grid := by
  rw [snapToGrid_eq_map, snapToGrid_eq_map, List.map_map]
  apply List.map_congr_left
  intro rect hrect
  obtain ⟨ex, ey⟩ := hexact rect hrect
  show (⟨⟨F32.mul (F32.floor (F32.div
          (F32.mul (F32.floor (F32.div rect.position.x grid.x)) grid.x) grid.x)) grid.x,
        F32.mul (F32.floor (F32.div
          (F32.mul (F32.floor (F32.div rect.position.y grid.y)) grid.y) grid.y)) grid.y⟩,
        rect.size⟩ : Rectangle)
      = ⟨⟨F32.mul (F32.floor (F32.div rect.position.x grid.x)) grid.x,
          F32.mul (F32.floor (F32.div rect.position.y grid.y)) grid.y⟩, rect.size⟩
  rw [snap_coordinate_again _ _ hx ex, snap_coordinate_again _ _ hy ey]

theorem snapToGrid_idempotent_witness :
    mainGrid.x.val ≠ 0 ∧ mainGrid.y.val ≠ 0 ∧
    (∀ c ∈ offGridCells,
      rnd (((⌊rnd (c.position.x.val / mainGrid.x.val)⌋ : ℤ) : ℚ) * mainGrid.x.val)
        = ((⌊rnd (c.position.x.val / mainGrid.x.val)⌋ : ℤ) : ℚ) * mainGrid.x.val ∧
      rnd (((⌊rnd (c.position.y.val / mainGrid.y.val)⌋ : ℤ) : ℚ) * mainGrid.y.val)
        = ((⌊rnd (c.position.y.val / mainGrid.y.val)⌋ : ℤ) : ℚ) * mainGrid.y.val) ∧
    snapToGrid (snapToGrid offGridCells mainGrid) mainGrid = snapToGrid offGridCells mainGrid :=
  ⟨by decide!, by decide!, by decide!,
    snapToGrid_idempotent offGridCells mainGrid (by decide!) (by decide!) (by decide!)⟩

theorem foldl_push_filter (pred : Rectangle → Bool) (cells : List Rectangle) :
    ∀ acc : List Rectangle,
      cells.foldl (fun out rect => if pred rect then out ++ [rect] else out) acc
        = acc ++ cells.filter pred := by
  induction cells with
  | nil => intro acc; simp
  | cons r cells ih =>
    intro acc
    by_cases hr : pred r = true
    · simp [ih, hr]
    · simp [ih, hr]

theorem makePartition_eq_filter (cells : List Rectangle) (pred : Rectangle → Bool) :
    makePartition cells pred = cells.filter pred := by
  simp [makePartition, foldl_push_filter]

theorem rowY_val (grid : Point) (i : Nat) :
    (rowY grid i).val = rnd (grid.y.val * rnd (i : ℚ)) := by
  rw [rowY, F32.mul_val, F32.ofNat_val]

theorem legalizedRows_none_of_empty_row (cells : List Rectangle) (grid : Point) (i : Nat)
    (hempty : makePartition cells (rowPred grid i) = []) :
    ∀ rows : List Nat, i ∈ rows → legalizedRows cells grid rows = none := by
  intro rows
  induction rows with
  | nil => intro h; simp at h
  | cons j rows ih =>
    intro h
    rcases List.mem_cons.mp h with rfl | h
    · simp [legalizedRows, hempty, legalize_nil]
    · simp only [legalizedRows, ih h]
      cases legalize (makePartition cells (rowPred grid j)) <;> rfl

theorem makeLegalizedPartitions_of_rowCount (cells : List Rectangle) (boundaries : Rectangle)
    (grid : Point) (n : Nat) (h : rowCount boundaries grid = some n) :
    makeLegalizedPartitions cells boundaries grid = legalizedRows cells grid (List.range n) := by
  unfold makeLegalizedPartitions
  rw [h]

/-! ## The expression of `main` on a single cell -/

/-- C3 (what the code does). With the boundary and grid of `main` and the single library
cell of width 20 at the origin as input, the expression of `main` yields no result,
whatever the recursion budget of the sort: row 1 holds no cell and `legalize` is applied
to it. -/
theorem legalizedLayout_loneCell_no_result :
    ∀ fuel, legalizedLayout fuel [loneCell] mainBoundaries mainGrid = none := by
  intro fuel
  have hsnap : snapToGrid [loneCell] mainGrid = [loneCell] := by decide!
  have hcount : rowCount mainBoundaries mainGrid = some 1500 := by decide!
  have hrow : makePartition [loneCell] (rowPred mainGrid 1) = [] := by decide!
  have hparts : makeLegalizedPartitions [loneCell] mainBoundaries mainGrid = none := by
    rw [makeLegalizedPartitions_of_rowCount _ _ _ 1500 hcount]
    exact legalizedRows_none_of_empty_row [loneCell] mainGrid 1 hrow (List.range 1500)
      (List.mem_range.mpr (by omega))
  cases fuel with
  | zero => rfl
  | succ fuel =>
    unfold legalizedLayout
    rw [hsnap, sortByX, mergeSort_single]
    show (match makeLegalizedPartitions [loneCell] mainBoundaries mainGrid with
      | none => none
      | some partitions => some (join partitions)) = none
    rw [hparts]

/-! ## `join` -/

theorem foldl_push_append (v : List Rectangle) :
    ∀ acc : List Rectangle, v.foldl (fun out el => out ++ [el]) acc = acc ++ v := by
  induction v with
  | nil => intro acc; simp
  | cons el v ih => intro acc; simp [ih]

theorem join_eq_flatten (partitions : List (List Rectangle)) :
    join partitions = partitions.flatten := by
  have h : ∀ acc : List Rectangle,
      partitions.foldl (fun out v => v.foldl (fun out el => out ++ [el]) out) acc
        = acc ++ partitions.flatten := by
    induction partitions with
    | nil => intro acc; simp
    | cons v partitions ih =>
      intro acc
      rw [List.foldl_cons, foldl_push_append, ih]
      simp
  simpa [join] using h []

/-- C12. Flattening is concatenation: `join` returns the partitions appended one after the
other, in partition order and with the order inside each partition kept, so its length
is the sum of the partition lengths. -/
theorem join_concatenates (ps : List (List Rectangle)) :
    join ps = ps.flatten ∧
    join ps = ps.foldr (fun p rest => p ++ rest) [] ∧
    (join ps).length = (ps.map List.length).sum := by
  refine ⟨join_eq_flatten ps, ?_, ?_⟩
  · rw [join_eq_flatten]
    induction ps with
    | nil => rfl
    | cons p ps ih => simp [ih]
  · rw [join_eq_flatten, List.length_flatten]

/-! ## The example row -/

/-- C13. The example of the specification: the row of the three cells `(x=5, width=10)`,
`(x=8, width=5)`, `(x=20, width=3)`, all with the same `y` and the same height, legalizes to
`(x=5, width=10)`, `(x=15, width=5)`, `(x=20, width=3)` in this order, `y` and sizes
unchanged. -/
theorem legalize_example (y height : F32) :
    legalize [⟨⟨5, y⟩, ⟨10, height⟩⟩, ⟨⟨8, y⟩, ⟨5, height⟩⟩, ⟨⟨20, y⟩, ⟨3, height⟩⟩]
      = some [⟨⟨5, y⟩, ⟨10, height⟩⟩, ⟨⟨15, y⟩, ⟨5, height⟩⟩, ⟨⟨20, y⟩, ⟨3, height⟩⟩] := by
  have h1 : stdMax (8 : F32) (F32.add 5 10) = 15 := by decide!
  have h2 : stdMax (20 : F32) (F32.add 15 5) = 20 := by decide!
  rw [legalize_cons]
  simp only [placeAfter, shifted, Point.add, h1, h2]

/-! ## `legalize` on rows that are not sorted -/

/-- C14. Residual overlap on unsorted input: `farUnsortedRow` is a non-empty row with
non-negative sizes that is not sorted by x-position, and in its legalized output the
second cell starts at `2^24`, left of the right edge `2^24 + 1` of the first: the edge
rounds to `2^24` in `float`. -/
theorem legalize_residual_overlap :
    ∃ row : List Rectangle, row ≠ [] ∧ (∀ c ∈ row, 0 ≤ c.size.x.val ∧ 0 ≤ c.size.y.val) ∧
      (¬ row.Pairwise (fun a b => a.position.x.val ≤ b.position.x.val)) ∧
      ∃ out, legalize row = some out ∧
        ∃ (i j : Nat) (hi : i < out.length) (hj : j < out.length), i < j ∧
          out[j].position.x.val < out[i].position.x.val + out[i].size.x.val := by
  refine ⟨farUnsortedRow, by decide, by decide!, by decide!, farRow, by decide!,
    0, 1, by decide, by decide, by decide, by decide!⟩

/-! ## The rows handed to `legalize` -/

theorem makePartition_ascending (cells : List Rectangle) (pred : Rectangle → Bool)
    (h : AscendingByCenter cells) : AscendingByCenter (makePartition cells pred) := by
  rw [makePartition_eq_filter]
  exact List.Pairwise.sublist (List.filter_sublist cells) h

/-- C15 (as stated, refuted). For the input `[wideCell, narrowCell]` on the grid of `main`
the sort returns `[narrowCell, wideCell]`, row 0 is this whole sequence, and its
x-positions `10, 0` are not non-decreasing. -/
theorem row_not_sorted_by_position :
    sortByX 2 (snapToGrid [wideCell, narrowCell] mainGrid) = some [narrowCell, wideCell] ∧
    makePartition [narrowCell, wideCell] (rowPred mainGrid 0) = [narrowCell, wideCell] ∧
    ¬ [narrowCell, wideCell].Pairwise (fun a b => a.position.x.val ≤ b.position.x.val) := by
  refine ⟨by decide!, by decide!, by decide!⟩

/-- C15 (amended). Every row that `makeLegalizedPartitions` filters out of the sorted,
snapped cells and passes to `legalize` is sorted by the centre x that the program
computes: `center().x`, the `float` value of `position.x + size.x / 2`, is non-decreasing
along the row. -/
theorem rows_ascending_by_center (fuel : Nat) (cells : List Rectangle) (grid : Point)
    (sorted : List Rectangle) (h : sortByX fuel (snapToGrid cells grid) = some sorted) :
    ∀ i : Nat,
      AscendingByCenter (makePartition sorted (rowPred grid i)) ∧
      (∀ (k : Nat) (hk : k + 1 < (makePartition sorted (rowPred grid i)).length),
        (makePartition sorted (rowPred grid i))[k].center.x.val
          ≤ (makePartition sorted (rowPred grid i))[k + 1].center.x.val) ∧
      (∀ r : Rectangle, r.center.x.val = rnd (r.position.x.val + r.size.x.val / 2)) := by
  intro i
  have hrow := makePartition_ascending sorted (rowPred grid i)
    (mergeSort_ascending fuel _ sorted h)
  refine ⟨hrow, ?_, center_x_val⟩
  intro k hk
  exact (List.pairwise_iff_getElem.mp hrow) k (k + 1) (by omega) hk (by omega)

theorem rows_ascending_by_center_witness :
    sortByX 2 (snapToGrid [wideCell, narrowCell] mainGrid) = some [narrowCell, wideCell] ∧
    ∀ i : Nat,
      AscendingByCenter (makePartition [narrowCell, wideCell] (rowPred mainGrid i)) ∧
      (∀ (k : Nat)
        (hk : k + 1 < (makePartition [narrowCell, wideCell] (rowPred mainGrid i)).length),
        (makePartition [narrowCell, wideCell] (rowPred mainGrid i))[k].center.x.val
          ≤ (makePartition [narrowCell, wideCell] (rowPred mainGrid i))[k + 1].center.x.val) ∧
      (∀ r : Rectangle, r.center.x.val = rnd (r.position.x.val + r.size.x.val / 2)) :=
  ⟨by decide!,
    rows_ascending_by_center 2 [wideCell, narrowCell] mainGrid [narrowCell, wideCell]
      (by decide!)⟩

/-- C16 (as stated, refuted). With rows `0.1f` apart and a boundary of four rows, no cell of
`tenthCells` has a y equal to the exact product `0.1f * 3`, yet row 3 is not empty: the
program compares with the rounded product, which is `0.3f`, the y of the last cell. All
four rows are legalized and returned. -/
theorem tenthCells_row_three_not_empty :
    rowCount tenthBoundaries tenthGrid = some 4 ∧
    (∀ c ∈ tenthCells, c.position.y.val ≠ tenthGrid.y.val * ((3 : Nat) : ℚ)) ∧
    makePartition tenthCells (rowPred tenthGrid 3) ≠ [] ∧
    ∃ rows, makeLegalizedPartitions tenthCells tenthBoundaries tenthGrid = some rows ∧
      rows.length = 4 := by
  refine ⟨by decide!, by decide!, by decide!, (tenthCells.map fun c => [c]), by decide!,
    by decide⟩

/-- C16 (amended). The pipeline can hand an empty row to `legalize`: whenever no cell of the
input of `makeLegalizedPartitions` has a `position.y` equal to `grid.y * i` as the
program computes it (the counter converted to `float`, the product rounded) for a row
index `i < rowCount`, row `i` is empty, `legalize` (which reads the first element
unconditionally) has no result on it, and so `makeLegalizedPartitions` has none either. -/
theorem makeLegalizedPartitions_empty_row (cells : List Rectangle) (boundaries : Rectangle)
    (grid : Point) (n i : Nat) (hn : rowCount boundaries grid = some n) (hi : i < n)
    (hrow : ∀ c ∈ cells, c.position.y.val ≠ (rowY grid i).val) :
    1 ≤ n ∧ (rowY grid i).val = rnd (grid.y.val * rnd (i : ℚ)) ∧
    makePartition cells (rowPred grid i) = [] ∧
    legalize (makePartition cells (rowPred grid i)) = none ∧
    makeLegalizedPartitions cells boundaries grid = none := by
  have hempty : makePartition cells (rowPred grid i) = [] := by
    rw [makePartition_eq_filter, List.filter_eq_nil_iff]
    intro c hc
    simpa [rowPred] using hrow c hc
  refine ⟨by omega, rowY_val grid i, hempty, by rw [hempty]; rfl, ?_⟩
  rw [makeLegalizedPartitions_of_rowCount _ _ _ n hn]
  exact legalizedRows_none_of_empty_row cells grid i hempty (List.range n)
    (List.mem_range.mpr hi)

theorem makeLegalizedPartitions_empty_row_witness :
    rowCount mainBoundaries mainGrid = some 1500 ∧ 1 < 1500 ∧
    (∀ c ∈ [loneCell], c.position.y.val ≠ (rowY mainGrid 1).val) ∧
    (1 ≤ 1500 ∧ (rowY mainGrid 1).val = rnd (mainGrid.y.val * rnd ((1 : Nat) : ℚ)) ∧
    makePartition [loneCell] (rowPred mainGrid 1) = [] ∧
    legalize (makePartition [loneCell] (rowPred mainGrid 1)) = none ∧
    makeLegalizedPartitions [loneCell] mainBoundaries mainGrid = none) :=
  ⟨by decide!, by decide, by decide!,
    makeLegalizedPartitions_empty_row [loneCell] mainBoundaries mainGrid 1500 1
      (by decide!) (by decide) (by decide!)⟩

/-! ## `legalize` shifts as little as rounding allows -/

theorem shifted_le (prev rect : Rectangle) (bound : ℚ) (hb : rnd bound = bound)
    (h1 : rect.position.x.val ≤ bound)
    (h2 : prev.position.x.val + prev.size.x.val ≤ bound) :
    (shifted prev rect).position.x.val ≤ bound := by
  show (stdMax rect.position.x (F32.add prev.position.x prev.size.x)).val ≤ bound
  rw [stdMax_val, F32.add_val]
  have := rnd_mono _ _ h2
  rw [hb] at this
  exact max_le h1 this

theorem placeAfter_least (rest : List Rectangle) :
    ∀ (prev : Rectangle) (f : Nat → ℚ),
      (∀ k : Nat, rnd (f k) = f k) →
      (∀ (k : Nat) (hk : k < rest.length), rest[k].position.x.val ≤ f k) →
      (0 < rest.length → prev.position.x.val + prev.size.x.val ≤ f 0) →
      (∀ (k : Nat) (hk : k + 1 < rest.length), f k + rest[k].size.x.val ≤ f (k + 1)) →
      ∀ (k : Nat) (hk : k < (placeAfter prev rest).length),
        (placeAfter prev rest)[k].position.x.val ≤ f k := by
  induction rest with
  | nil => intro prev f _ _ _ _ k hk; simp [placeAfter] at hk
  | cons r rest ih =>
    intro prev f hf h1 h2 h3 k hk
    have h0 : (shifted prev r).position.x.val ≤ f 0 :=
      shifted_le prev r (f 0) (hf 0) (h1 0 (by simp)) (h2 (by simp))
    cases k with
    | zero => simpa [placeAfter] using h0
    | succ k =>
      simp only [placeAfter, List.getElem_cons_succ]
      refine ih (shifted prev r) (fun k => f (k + 1)) (fun k => hf (k + 1)) ?_ ?_ ?_ k _
      · intro j hj
        exact h1 (j + 1) (by simpa using hj)
      · intro hpos
        have hstep := h3 0 (by simpa using hpos)
        have hsz : (shifted prev r).size.x.val = r.size.x.val := rfl
        simp only [List.getElem_cons_zero] at hstep
        rw [hsz]
        linarith
      · intro j hj
        exact h3 (j + 1) (by simpa using hj)

set_option maxRecDepth 100000 in
/-- C18 (as stated, refuted). For `dragRow` the positions `q = [0.1f, 0.1f + 0.2f]` (the
second one the exact sum) meet both conditions, but `legalize` places the second cell at
the `float` sum of `0.1f` and `0.2f`, which is `0.3f` and lies above the exact sum. -/
theorem legalize_dragRow_above_target :
    dragRow ≠ [] ∧ dragTargets.length = dragRow.length ∧
    (∀ (k : Nat) (hk : k < dragRow.length) (hq : k < dragTargets.length),
      dragTargets[k] ≥ dragRow[k].position.x.val) ∧
    (∀ (k : Nat) (_ : 1 ≤ k) (hk : k < dragRow.length) (hq : k < dragTargets.length),
      dragTargets[k] ≥ dragTargets[k - 1] + dragRow[k - 1].size.x.val) ∧
    ∃ out, legalize dragRow = some out ∧
      ∃ (h1 : 1 < out.length) (h2 : 1 < dragTargets.length),
        ¬ (out[1].position.x.val ≤ dragTargets[1]) := by
  refine ⟨by decide, by decide, ?_, ?_, ?_⟩
  · intro k hk hq
    have hk2 : k < 2 := hk
    revert hk hq
    interval_cases k <;> decide!
  · intro k h1 hk hq
    have hk2 : k < 2 := hk
    revert h1 hk hq
    interval_cases k <;> decide!
  · have hval : legalize dragRow
        = some [⟨⟨F32.ofRat (1 / 10), 0⟩, ⟨F32.ofRat (2 / 10), 200⟩⟩,
            ⟨⟨F32.ofRat (3 / 10), 0⟩, ⟨1, 200⟩⟩] := by decide!
    exact ⟨_, hval, by decide, by decide, by decide!⟩

/-- C18 (amended). Legalization is the least rightward shift among `float` positions: for a
non-empty row and any sequence `q` of binary32 x-positions of the same length with
`q[k] ≥ in[k].position.x` for all `k` and `q[k] ≥ q[k-1] + in[k-1].size.x` for all
`k ≥ 1`, `legalize` returns a row `out` of the same length with
`out[k].position.x ≤ q[k]` for every `k`. -/
theorem legalize_least_shift (row : List Rectangle) (q : List F32) (hrow : row ≠ [])
    (hlen : q.length = row.length)
    (hright : ∀ (k : Nat) (hk : k < row.length) (hq : k < q.length),
      q[k].val ≥ row[k].position.x.val)
    (hclear : ∀ (k : Nat) (_ : 1 ≤ k) (hk : k < row.length) (hq : k < q.length),
      q[k].val ≥ q[k - 1].val + row[k - 1].size.x.val) :
    ∃ out, legalize row = some out ∧ out.length = row.length ∧
      ∀ (k : Nat) (hk : k < out.length) (hq : k < q.length),
        out[k].position.x.val ≤ q[k].val := by
  cases row with
  | nil => exact absurd rfl hrow
  | cons a rest =>
    refine ⟨a :: placeAfter a rest, legalize_cons a rest, by simp [placeAfter_length], ?_⟩
    have hlen2 : q.length = rest.length + 1 := by simpa using hlen
    have hq0 : a.position.x.val ≤ q[0].val := hright 0 (by simp) (by omega)
    have hget : ∀ (k : Nat) (hk : k < q.length), (q.getD k 0).val = q[k].val :=
      fun k hk => congrArg F32.val (List.getD_eq_getElem q 0 hk)
    have hclear2 : ∀ (k : Nat) (hk : k + 1 < (a :: rest).length) (hq : k + 1 < q.length),
        q[k + 1].val ≥ q[k].val + (a :: rest)[k].size.x.val :=
      fun k hk hq => hclear (k + 1) (by omega) hk hq
    have key := placeAfter_least rest a (fun k => (q.getD (k + 1) 0).val)
      (fun k => F32.rnd_val _) ?_ ?_ ?_
    · intro k hk hq
      cases k with
      | zero => simpa using hq0
      | succ k =>
        have := key k (by simpa using hk)
        simp only [List.getElem_cons_succ]
        rw [← hget (k + 1) hq]
        exact this
    · intro k hk
      have := hright (k + 1) (by simp; omega) (by omega)
      simp only [List.getElem_cons_succ] at this
      show rest[k].position.x.val ≤ (q.getD (k + 1) 0).val
      rw [hget (k + 1) (by omega)]
      exact this
    · intro hpos
      have := hclear2 0 (by simp; omega) (by omega)
      simp only [List.getElem_cons_zero] at this
      show a.position.x.val + a.size.x.val ≤ (q.getD (0 + 1) 0).val
      rw [hget (0 + 1) (by omega)]
      linarith
    · intro k hk
      have := hclear2 (k + 1) (by simp; omega) (by omega)
      simp only [List.getElem_cons_succ] at this
      show (q.getD (k + 1) 0).val + rest[k].size.x.val ≤ (q.getD (k + 1 + 1) 0).val
      rw [hget (k + 1) (by omega), hget (k + 1 + 1) (by omega)]
      exact this

theorem legalize_least_shift_witness :
    sampleRow ≠ [] ∧ sampleTargets.length = sampleRow.length ∧
    (∀ (k : Nat) (hk : k < sampleRow.length) (hq : k < sampleTargets.length),
      sampleTargets[k].val ≥ sampleRow[k].position.x.val) ∧
    (∀ (k : Nat) (_ : 1 ≤ k) (hk : k < sampleRow.length) (hq : k < sampleTargets.length),
      sampleTargets[k].val ≥ sampleTargets[k - 1].val + sampleRow[k - 1].size.x.val) ∧
    ∃ out, legalize sampleRow = some out ∧ out.length = sampleRow.length ∧
      ∀ (k : Nat) (hk : k < out.length) (hq : k < sampleTargets.length),
        out[k].position.x.val ≤ sampleTargets[k].val :=
  have hright : ∀ (k : Nat) (hk : k < sampleRow.length) (hq : k < sampleTargets.length),
      sampleTargets[k].val ≥ sampleRow[k].position.x.val := by
    intro k hk hq
    have hk3 : k < 3 := hk
    interval_cases k
    · revert hk hq; decide!
    · revert hk hq; decide!
    · revert hk hq; decide!
  have hclear : ∀ (k : Nat) (_ : 1 ≤ k) (hk : k < sampleRow.length)
      (hq : k < sampleTargets.length),
      sampleTargets[k].val ≥ sampleTargets[k - 1].val + sampleRow[k - 1].size.x.val := by
    intro k h1 hk hq
    have hk3 : k < 3 := hk
    interval_cases k
    · revert h1 hk hq; decide!
    · revert h1 hk hq; decide!
  ⟨by decide, rfl, hright, hclear,
    legalize_least_shift sampleRow sampleTargets (by decide) rfl hright hclear⟩

/-! ## `legalize` on rows that are already legal -/

theorem shifted_eq_self (prev rect : Rectangle)
    (h : rect.position.x.val ≥ (F32.add prev.position.x prev.size.x).val) :
    shifted prev rect = rect := by
  have hmax : stdMax rect.position.x (F32.add prev.position.x prev.size.x)
      = rect.position.x := by
    unfold stdMax
    rw [if_neg (not_lt.mpr h)]
  show (⟨⟨stdMax rect.position.x (F32.add prev.position.x prev.size.x), rect.position.y⟩,
    rect.size⟩ : Rectangle) = rect
  rw [hmax]

theorem placeAfter_fixed (rest : List Rectangle) :
    ∀ prev : Rectangle,
      (∀ (k : Nat) (hk : k + 1 < (prev :: rest).length),
        (prev :: rest)[k + 1].position.x.val
          ≥ (F32.add (prev :: rest)[k].position.x (prev :: rest)[k].size.x).val) →
      placeAfter prev rest = rest := by
  induction rest with
  | nil => intro prev _; rfl
  | cons r rest ih =>
    intro prev h
    have h0 : shifted prev r = r := shifted_eq_self prev r (by simpa using h 0 (by simp))
    rw [placeAfter, h0, ih r]
    intro k hk
    have := h (k + 1) (by simpa using hk)
    simpa using this

theorem legalize_fixed (a : Rectangle) (rest : List Rectangle)
    (h : ∀ (k : Nat) (hk : k + 1 < (a :: rest).length),
      (a :: rest)[k + 1].position.x.val
        ≥ (F32.add (a :: rest)[k].position.x (a :: rest)[k].size.x).val) :
    legalize (a :: rest) = some (a :: rest) := by
  rw [legalize_cons, placeAfter_fixed rest a h]

/-- C19. Legalization is idempotent and fixes already-legal rows: for a non-empty row,
`legalize` returns a row `out` on which `legalize` returns `out` again; and if every cell
of the input at an index `k ≥ 1` already starts at or after the right edge of the cell
before it, `legalize` returns the input itself. -/
theorem legalize_idempotent (row : List Rectangle) (hrow : row ≠ []) :
    ∃ out, legalize row = some out ∧ legalize out = some out ∧
      ((∀ (k : Nat) (_ : 1 ≤ k) (hk : k < row.length),
          row[k].position.x.val ≥ row[k - 1].position.x.val + row[k - 1].size.x.val) →
        legalize row = some row) := by
  cases row with
  | nil => exact absurd rfl hrow
  | cons a rest =>
    refine ⟨a :: placeAfter a rest, legalize_cons a rest, ?_, ?_⟩
    · exact legalize_fixed a (placeAfter a rest) (placeAfter_adjacent rest a)
    · intro hlegal
      refine legalize_fixed a rest (fun k hk => ?_)
      rw [F32.add_val]
      exact F32.le_of_exact_le _ _ (hlegal (k + 1) (by omega) hk)

theorem legalize_idempotent_witness :
    sampleRow ≠ [] ∧
    ∃ out, legalize sampleRow = some out ∧ legalize out = some out ∧
      ((∀ (k : Nat) (_ : 1 ≤ k) (hk : k < sampleRow.length),
          sampleRow[k].position.x.val
            ≥ sampleRow[k - 1].position.x.val + sampleRow[k - 1].size.x.val) →
        legalize sampleRow = some sampleRow) :=
  ⟨by decide, legalize_idempotent sampleRow (by decide)⟩
